import Mathlib

/-!
# Verification of the Brick ontology compiler (`generate_brick.py`)

This file gives a shallow embedding of the compiler in `generate_brick.py`
into Lean 4 and proves (or refutes) the specification claims about it.

Modelling conventions:
* An RDF term is `Term`: a URI, a labelled blank node (rdflib `BNode("lbl")`,
  where equal labels denote the same node), an anonymous blank node
  (rdflib `BNode()`, modelled as `anon k` with a fresh counter `k` threaded
  through the state, mirroring rdflib's unique ids), or a literal.
  rdflib's `Literal(x)` infers a datatype from the Python value, so plain
  strings, integers and booleans are distinct literal constructors.
* An rdflib `Graph` is a set of triples (adding an existing triple is a
  no-op), embedded as `Finset (Term × Term × Term)`.
* The module-level mutable state of `generate_brick.py` (`G`, `shaclGraph`,
  the two caches `shacl_tag_property_shapes` / `has_exactly_n_tags_shapes`,
  and the implicit supply of fresh anonymous blank nodes) is the record `St`,
  threaded explicitly through each compiler function.
* `logging.warning` / `logging.info` calls are pure no-ops and are omitted.
-/

/-- An RDF term as handled by rdflib in `generate_brick.py`. -/
inductive Term where
  | uri (s : String)
  | bnode (s : String)
  | anon (k : Nat)
  | litStr (s : String)
  | litNat (n : Nat)
  | litBool (b : Bool)
deriving DecidableEq, Repr

/-- A subject–predicate–object statement. -/
abbrev Triple := Term × Term × Term

/-- An rdflib `Graph`: a set of triples. -/
abbrev Graph := Finset Triple

/-- `G.add(t)` on an rdflib graph: set insertion. -/
def Graph.add (g : Graph) (t : Triple) : Graph := insert t g

/-- Add a list of triples (a sequence of `G.add` calls). -/
def Graph.addAll (g : Graph) (ts : List Triple) : Graph := ts.foldl Graph.add g

/-- Python `str(term)`: the URI text for a `URIRef`, the id for a `BNode`.
(The compiler only ever applies `str`/`.split` to URIs and labelled blank
nodes; the remaining cases are given harmless values.) -/
def Term.str : Term → String
  | .uri s => s
  | .bnode s => s
  | .anon k => "_anon_" ++ toString k
  | .litStr s => s
  | .litNat n => toString n
  | .litBool b => toString b

/-- Python `s.split("#")[-1]`: the fragment after the last `#` (the whole
string when there is no `#`), computed character-wise. -/
def localAfterHash (s : String) : String :=
  ⟨s.data.foldl (fun acc c => if c = '#' then [] else acc ++ [c]) []⟩

/-- Python `s.replace("_", " ")` for the single-character pattern used by the
compiler: replace every underscore by a space. -/
def replaceUnderscores (s : String) : String :=
  ⟨s.data.map (fun c => if c = '_' then ' ' else c)⟩

/-- `term.split("#")[-1]` as used throughout `generate_brick.py`. -/
def Term.localName (t : Term) : String := localAfterHash t.str

namespace NS

def brick : String := "https://brickschema.org/schema/Brick#"
def bsh : String := "https://brickschema.org/schema/BrickShape#"
def tag : String := "https://brickschema.org/schema/BrickTag#"
def rdf : String := "http://www.w3.org/1999/02/22-rdf-syntax-ns#"
def rdfs : String := "http://www.w3.org/2000/01/rdf-schema#"
def owl : String := "http://www.w3.org/2002/07/owl#"
def sh : String := "http://www.w3.org/ns/shacl#"
def skos : String := "http://www.w3.org/2004/02/skos/core#"
def qudt : String := "http://qudt.org/schema/qudt/"
def sosa : String := "http://www.w3.org/ns/sosa/"

end NS

/-- `BRICK[name]`. -/
def BRICK (s : String) : Term := .uri (NS.brick ++ s)
/-- `BSH[name]`. -/
def BSH (s : String) : Term := .uri (NS.bsh ++ s)
/-- `TAG[name]`. -/
def TAGNS (s : String) : Term := .uri (NS.tag ++ s)

namespace V

/-- `A = RDF.type`. -/
def A : Term := .uri (NS.rdf ++ "type")
def rdfFirst : Term := .uri (NS.rdf ++ "first")
def rdfRest : Term := .uri (NS.rdf ++ "rest")
def rdfNil : Term := .uri (NS.rdf ++ "nil")
def rdfsLabel : Term := .uri (NS.rdfs ++ "label")
def rdfsSubClassOf : Term := .uri (NS.rdfs ++ "subClassOf")
def rdfsSubPropertyOf : Term := .uri (NS.rdfs ++ "subPropertyOf")
def owlClass : Term := .uri (NS.owl ++ "Class")
def owlObjectProperty : Term := .uri (NS.owl ++ "ObjectProperty")
def owlDatatypeProperty : Term := .uri (NS.owl ++ "DatatypeProperty")
def owlDeprecated : Term := .uri (NS.owl ++ "deprecated")
def shNodeShape : Term := .uri (NS.sh ++ "NodeShape")
def shPropertyShape : Term := .uri (NS.sh ++ "PropertyShape")
def shTripleRule : Term := .uri (NS.sh ++ "TripleRule")
def shRule : Term := .uri (NS.sh ++ "rule")
def shSubject : Term := .uri (NS.sh ++ "subject")
def shPredicate : Term := .uri (NS.sh ++ "predicate")
def shObject : Term := .uri (NS.sh ++ "object")
def shCondition : Term := .uri (NS.sh ++ "condition")
def shProperty : Term := .uri (NS.sh ++ "property")
def shPath : Term := .uri (NS.sh ++ "path")
def shClass : Term := .uri (NS.sh ++ "class")
def shOr : Term := .uri (NS.sh ++ "or")
def shIn : Term := .uri (NS.sh ++ "in")
def shNode : Term := .uri (NS.sh ++ "node")
def shDatatype : Term := .uri (NS.sh ++ "datatype")
def shMinCount : Term := .uri (NS.sh ++ "minCount")
def shMaxCount : Term := .uri (NS.sh ++ "maxCount")
def shQualifiedValueShape : Term := .uri (NS.sh ++ "qualifiedValueShape")
def shQualifiedMinCount : Term := .uri (NS.sh ++ "qualifiedMinCount")
def shHasValue : Term := .uri (NS.sh ++ "hasValue")
def shTargetClass : Term := .uri (NS.sh ++ "targetClass")
def shTargetSubjectsOf : Term := .uri (NS.sh ++ "targetSubjectsOf")
def shThis : Term := .uri (NS.sh ++ "this")
def skosBroader : Term := .uri (NS.skos ++ "broader")
def skosNarrower : Term := .uri (NS.skos ++ "narrower")
def skosRelated : Term := .uri (NS.skos ++ "related")
def qudtApplicableUnit : Term := .uri (NS.qudt ++ "applicableUnit")
def brickEntity : Term := BRICK "Entity"
def brickTag : Term := BRICK "Tag"
def brickQuantity : Term := BRICK "Quantity"
def brickHasTag : Term := BRICK "hasTag"
def brickHasAssociatedTag : Term := BRICK "hasAssociatedTag"
def brickHasQUDTReference : Term := BRICK "hasQUDTReference"
def brickEntityProperty : Term := BRICK "EntityProperty"
def brickDeprecatedInVersion : Term := BRICK "deprecatedInVersion"
def brickDeprecationMitigationMessage : Term := BRICK "deprecationMitigationMessage"
def brickIsReplacedBy : Term := BRICK "isReplacedBy"
def brickRelationship : Term := BRICK "Relationship"
def bshNumericValue : Term := BSH "NumericValue"

end V

/-- The module-level mutable state of `generate_brick.py`. -/
structure St where
  /-- The main graph `G`. -/
  G : Graph
  /-- The SHACL tag-inference extension graph `shaclGraph`. -/
  S : Graph
  /-- `shacl_tag_property_shapes`: tag → cached tag detection condition. -/
  tagShapes : List (Term × Term)
  /-- `has_exactly_n_tags_shapes`: tag count → cached cardinality shape. -/
  cardShapes : List (Nat × Term)
  /-- Supply for fresh anonymous blank nodes (rdflib `BNode()`). -/
  next : Nat

/-- The state at module load: both graphs and both caches empty. -/
def St.init : St := ⟨∅, ∅, [], [], 0⟩

/-- Python dict lookup on an association list (keys are unique in a dict;
the first binding wins). -/
def alist.lookup {α β : Type} [DecidableEq α] : List (α × β) → α → Option β
  | [], _ => none
  | (k, v) :: rest, a => if a = k then some v else alist.lookup rest a

/-- `has_label(concept)`: whether `G` has any `RDFS.label` statement for it. -/
def hasLabel (g : Graph) (concept : Term) : Bool :=
  decide (∃ t ∈ g, t.1 = concept ∧ t.2.1 = V.rdfsLabel)

theorem hasLabel_iff (g : Graph) (c : Term) :
    hasLabel g c = true ↔ ∃ ℓ, (c, V.rdfsLabel, ℓ) ∈ g := by
  simp only [hasLabel, decide_eq_true_eq]
  constructor
  · rintro ⟨⟨s, p, o⟩, hm, h1, h2⟩
    exact ⟨o, by simp_all⟩
  · rintro ⟨ℓ, hm⟩
    exact ⟨(c, V.rdfsLabel, ℓ), hm, rfl, rfl⟩

/-! ## The Tag Inference Engine: `add_tags` (generate_brick.py lines 110–203) -/

/-- `BSH[klass.split("#")[-1] + "_TagShape"]`: the class's tag-shape name. -/
def scNode (klass : Term) : Term := BSH (klass.localName ++ "_TagShape")

/-- `BNode(str(klass) + "TagInferenceRule")`. -/
def ruleNode (klass : Term) : Term := .bnode (klass.str ++ "TagInferenceRule")

/-- `BNode(f"has_(tag)_condition")`: the tag detection condition node. -/
def condNode (tag : Term) : Term := .bnode ("has_" ++ tag.localName ++ "_condition")

/-- `BNode(f"has_(tag)_tag")`: the property shape inside a tag condition. -/
def propNode (tag : Term) : Term := .bnode ("has_" ++ tag.localName ++ "_tag")

/-- `BSH[f"has_exactly_(n)_tags_condition"]`: the exact-cardinality shape. -/
def cardCondNode (n : Nat) : Term :=
  BSH ("has_exactly_" ++ toString n ++ "_tags_condition")

/-- `BNode(f"has_exactly_(n)_tags")`: the property shape inside it. -/
def cardPropNode (n : Nat) : Term := .bnode ("has_exactly_" ++ toString n ++ "_tags")

/-- `BSH[f"has_exactly_(n)_tags_rule"]`: the companion inference rule. -/
def cardRuleNode (n : Nat) : Term := BSH ("has_exactly_" ++ toString n ++ "_tags_rule")

/-- `BNode(f"has_(n)_tags_body")`: the companion rule's body. -/
def bodyNode (n : Nat) : Term := .bnode ("has_" ++ toString n ++ "_tags_body")

/-- Body of `if tag not in shacl_tag_property_shapes:` (lines 160–175):
construct the tag detection condition for `tag`, attach it to `rule`, and
cache it. `tagshape = BNode()` is a fresh anonymous node. -/
def tagCreate (st : St) (rule tag : Term) : St :=
  let cond := condNode tag
  let prop := propNode tag
  let tagshape := Term.anon st.next
  { st with
    S := st.S.addAll [(rule, V.shCondition, cond), (cond, V.shProperty, prop),
      (prop, V.shPath, V.brickHasTag), (prop, V.shQualifiedValueShape, tagshape),
      (tagshape, V.shHasValue, tag), (prop, V.shQualifiedMinCount, Term.litNat 1)],
    tagShapes := (tag, cond) :: st.tagShapes,
    next := st.next + 1 }

/-- Body of the `for tag in definition:` conditions loop (lines 152–176). -/
def tagLoopStep (klass rule : Term) (st : St) (tag : Term) : St :=
  let classrule := Term.bnode ("add_" ++ tag.localName ++ "_to_" ++ klass.localName)
  let st1 : St := { st with
    G := st.G.addAll [(klass, V.A, V.shNodeShape), (klass, V.shRule, classrule),
      (classrule, V.A, V.shTripleRule), (classrule, V.shSubject, V.shThis),
      (classrule, V.shPredicate, V.brickHasTag), (classrule, V.shObject, tag)] }
  let st2 := if (alist.lookup st1.tagShapes tag).isNone
    then tagCreate st1 rule tag else st1
  -- line 176: attach the (possibly shared) cached condition; the key is
  -- always present here (it was inserted just above if missing), so the
  -- KeyError default is never used.
  { st2 with
    S := st2.S.add (rule, V.shCondition,
      (alist.lookup st2.tagShapes tag).getD (Term.uri "KeyError")) }

/-- Lines 177–201: the exact-cardinality shape and its companion rule,
created once per tag count `n` and cached. -/
def cardBlock (st : St) (n : Nat) : St :=
  if (alist.lookup st.cardShapes n).isNone then
    let cond := cardCondNode n
    let prop := cardPropNode n
    let st1 : St := { st with
      S := st.S.addAll [(cond, V.A, V.owlClass), (cond, V.A, V.shNodeShape),
        (cond, V.shProperty, prop), (prop, V.shPath, V.brickHasTag),
        (prop, V.shMinCount, .litNat n), (prop, V.shMaxCount, .litNat n)],
      cardShapes := (n, cond) :: st.cardShapes }
    let rule := cardRuleNode n
    let body := bodyNode n
    { st1 with
      S := st1.S.addAll [(rule, V.A, V.shNodeShape),
        (rule, V.shTargetSubjectsOf, V.brickHasTag), (rule, V.shRule, body),
        (body, V.A, V.shTripleRule), (body, V.shSubject, V.shThis),
        (body, V.shPredicate, V.A), (body, V.shObject, cond),
        (body, V.shCondition, cond)] }
  else st

/-- The three `G.add` calls of the first `for tag in definition:` loop
(lines 132–137): associate the tag, declare it a Tag, and label it. -/
def g1triples (klass tag : Term) : List Triple :=
  [(klass, V.brickHasAssociatedTag, tag), (tag, V.A, V.brickTag),
   (tag, V.rdfsLabel, .litStr tag.localName)]

/-- `add_tags(klass, definition)` (lines 110–203). -/
def addTags (st : St) (klass : Term) (definition : List Term) : St :=
  if definition.length = 0 then st else
  -- first group: hasAssociatedTag triples into G (lines 132–137)
  let st1 := definition.foldl
    (fun s tag => { s with G := s.G.addAll (g1triples klass tag) }) st
  -- the class's node shape and inference rule (lines 140–150)
  let sc := scNode klass
  let rule := ruleNode klass
  let st2 : St := { st1 with
    S := st1.S.addAll [(sc, V.A, V.shNodeShape), (sc, V.shRule, rule),
      (rule, V.A, V.shTripleRule), (rule, V.shSubject, V.shThis),
      (rule, V.shPredicate, V.A), (rule, V.shObject, klass)] }
  -- conditions (lines 152–176)
  let st3 := definition.foldl (tagLoopStep klass rule) st2
  -- cardinality shape (lines 177–201)
  let st4 := cardBlock st3 definition.length
  -- line 203: bind the class's shape target to the shared cardinality shape
  { st4 with
    S := st4.S.add (sc, V.shTargetClass,
      (alist.lookup st4.cardShapes definition.length).getD (Term.uri "KeyError")) }

/-- A sequence of `add_tags` calls over one compilation run, starting from the
module-load state (both caches empty). -/
def runAddTags (calls : List (Term × List Term)) : St :=
  calls.foldl (fun st c => addTags st c.1 c.2) St.init

/-! ## The Class Hierarchy Compiler: `define_classes` (lines 264–358) -/

/-- The value of one entry of a `"constraints"` mapping. `define_constraints`
accepts a single class reference or a list of class references; any other
shape raises an exception, so it is excluded by this input type. -/
inductive Allowed where
  | single (t : Term)
  | listOf (ts : List Term)
deriving Repr

/-- A property value in a definition dictionary: either a single term or a
list of terms (emitted one statement per element). Nested dictionaries only
occur under the reserved keys, which are modelled as dedicated fields. -/
inductive PropVal where
  | one (t : Term)
  | many (ts : List Term)
deriving Repr

mutual
/-- A Definition Node for `define_classes`: the reserved keys `tags`,
`subclasses`, `parents`, `constraints` plus the open pass-through
property–value pairs. -/
inductive ClassDef where
  | mk (tags : List Term) (subclasses : ClassDefs) (parents : List Term)
       (constraints : List (Term × Allowed)) (props : List (Term × PropVal))

/-- The entries of a `definitions` dictionary for `define_classes`. -/
inductive ClassDefs where
  | nil
  | cons (name : String) (d : ClassDef) (rest : ClassDefs)
end

/-- `rdflib.collection.Collection(G, head, items)`: lay `items` out as an
RDF linked list starting at `head`, allocating a fresh anonymous node for
every list cell after the first. -/
def mkCollection (g : Graph) (next : Nat) (head : Term) :
    List Term → Graph × Nat
  | [] => (g, next)
  | [x] => (g.addAll [(head, V.rdfFirst, x), (head, V.rdfRest, V.rdfNil)], next)
  | x :: y :: rest =>
    let cell := Term.anon next
    mkCollection (g.addAll [(head, V.rdfFirst, x), (head, V.rdfRest, cell)])
      (next + 1) cell (y :: rest)

/-- One entry of `define_constraints` (lines 340–358): `pnode = BNode()` and
`onode = BNode()` are allocated up front; a single allowed class becomes a
`sh:class` constraint, a list becomes an `sh:or` over fresh per-class
constraint nodes laid out as an RDF list. -/
def defineConstraint (st : St) (classname propertyName : Term)
    (propertyValues : Allowed) : St :=
  let pnode := Term.anon st.next
  let onode := Term.anon (st.next + 1)
  let g := st.G.addAll [(classname, V.A, V.shNodeShape),
    (classname, V.shProperty, pnode), (pnode, V.shPath, propertyName)]
  match propertyValues with
  | .single v => { st with G := g.add (pnode, V.shClass, v), next := st.next + 2 }
  | .listOf vs =>
    let g := g.add (pnode, V.shOr, onode)
    -- build the per-class constraint fragments, one fresh node each
    let built := vs.foldl (fun (acc : Graph × Nat × List Term) pv =>
      let pvnode := Term.anon acc.2.1
      (acc.1.add (pvnode, V.shClass, pv), acc.2.1 + 1, acc.2.2 ++ [pvnode]))
      (g, st.next + 2, [])
    let fin := mkCollection built.1 built.2.1 onode built.2.2
    { st with G := fin.1, next := fin.2 }

/-- `define_constraints(constraints, classname)` (lines 334–358). -/
def defineConstraints (st : St) (constraints : List (Term × Allowed))
    (classname : Term) : St :=
  constraints.foldl (fun s pc => defineConstraint s classname pc.1 pc.2) st

/-- Lines 277–279: declare the class and its subclass edge to the parent. -/
def classBase (st : St) (classname parent : Term) : St :=
  { st with
    G := st.G.addAll
      [(classname, V.A, V.owlClass), (classname, V.rdfsSubClassOf, parent)] }

/-- The class's derived label: `classname.split("#")[-1].replace("_", " ")`. -/
def autoLabel (classname : Term) : Term :=
  .litStr (replaceUnderscores classname.localName)

/-- Lines 281–284: add the derived label, guarded by `has_label`
(first writer wins, an existing label is kept). -/
def classLabelStep (st : St) (classname : Term) : St :=
  if hasLabel st.G classname then st else
    { st with G := st.G.add (classname, V.rdfsLabel, autoLabel classname) }

/-- Lines 285–286: punning. -/
def punStep (st : St) (classname : Term) (punClasses : Bool) : St :=
  if punClasses then { st with G := st.G.add (classname, V.A, classname) } else st

/-- Lines 302–306: `'parents'` cross-hierarchy subclass links. -/
def parentsStep (st : St) (classname : Term) (parents : List Term) : St :=
  { st with
    G := parents.foldl (fun g p => g.add (classname, V.rdfsSubClassOf, p)) st.G }

/-- Lines 313–331: all remaining property-value pairs are emitted verbatim,
list values one statement per element. -/
def classPropsStep (st : St) (classname : Term) (props : List (Term × PropVal)) : St :=
  { st with
    G := props.foldl (fun g pv =>
      match pv.2 with
      | .one t => g.add (classname, pv.1, t)
      | .many ts => ts.foldl (fun g t => g.add (classname, pv.1, t)) g) st.G }

mutual
/-- `define_classes(definitions, parent, pun_classes)` (lines 264–331):
iterate the definition entries in order. -/
def defineClasses (st : St) (defs : ClassDefs) (parent : Term)
    (punClasses : Bool) : St :=
  match defs with
  | .nil => st
  | .cons name d rest =>
    defineClasses (defineClass st name d parent punClasses) rest parent punClasses

/-- The body of the `for classname, defn in definitions.items():` loop. -/
def defineClass (st : St) (name : String) (d : ClassDef) (parent : Term)
    (punClasses : Bool) : St :=
  match d with
  | .mk tags subclasses parents constraints props =>
    let classname := BRICK name
    let st1 := classBase st classname parent
    let st2 := classLabelStep st1 classname
    let st3 := punStep st2 classname punClasses
    -- tags (an empty list logs a warning and skips tag inference)
    let st4 := addTags st3 classname tags
    -- nested subclasses, with the current class as parent
    let st5 := defineClasses st4 subclasses classname false
    let st6 := parentsStep st5 classname parents
    let st7 := defineConstraints st6 constraints classname
    classPropsStep st7 classname props
end

/-! ## Basic graph lemmas -/

theorem mem_add {g : Graph} {t x : Triple} : x ∈ g.add t ↔ x = t ∨ x ∈ g := by
  simp [Graph.add]

theorem subset_add (g : Graph) (t : Triple) : g ⊆ g.add t :=
  Finset.subset_insert t g

theorem mem_addAll {ts : List Triple} {g : Graph} {x : Triple} :
    x ∈ g.addAll ts ↔ x ∈ g ∨ x ∈ ts := by
  induction ts generalizing g with
  | nil => simp [Graph.addAll]
  | cons t rest ih =>
    show x ∈ (g.add t).addAll rest ↔ _
    rw [ih, mem_add, List.mem_cons]
    tauto

theorem subset_addAll (g : Graph) (ts : List Triple) : g ⊆ g.addAll ts :=
  fun _ hx => mem_addAll.2 (Or.inl hx)

theorem addAll_subset {g g' : Graph} {ts : List Triple}
    (hg : g ⊆ g') (hts : ∀ x ∈ ts, x ∈ g') : g.addAll ts ⊆ g' := by
  intro x hx
  rcases mem_addAll.1 hx with h | h
  · exact hg h
  · exact hts x h

/-! ## Claim C6: the minimal-class scenario -/

/-- The input of the minimal-class scenario:
`definitions = ("Foo" maps-to (tags: [TAG.T1]))`, with no subclasses,
parents, constraints or extra properties. -/
def c6defs : ClassDefs := .cons "Foo" (.mk [TAGNS "T1"] .nil [] [] []) .nil

/-- The compiler state after `define_classes(c6defs, BRICK.Entity)` starting
from the module-load state. -/
def c6state : St := defineClasses St.init c6defs V.brickEntity false

/-- C6: compiling the minimal input Foo maps-to tags [T1] under parent
`brick:Entity` emits `Foo subClassOf Entity`, `Foo hasAssociatedTag T1` and
`T1 rdf:type brick:Tag`, together with a tag-inference rule for Foo in the
SHACL extension graph whose sole `sh:condition` is the "has tag T1"
detection condition (a qualified-value-shape constraint on `brick:hasTag`
with value `TAG.T1`), and whose shape's target (`sh:targetClass`) is the
shared exact-cardinality shape for exactly one tag
(`sh:minCount 1` / `sh:maxCount 1` on `brick:hasTag`). -/
theorem C6_minimal_class_scenario :
    -- the three statements in the main graph
    (BRICK "Foo", V.rdfsSubClassOf, V.brickEntity) ∈ c6state.G ∧
    (BRICK "Foo", V.brickHasAssociatedTag, TAGNS "T1") ∈ c6state.G ∧
    (TAGNS "T1", V.A, V.brickTag) ∈ c6state.G ∧
    -- Foo's tag-inference rule, asserting rdf:type Foo
    (scNode (BRICK "Foo"), V.shRule, ruleNode (BRICK "Foo")) ∈ c6state.S ∧
    (ruleNode (BRICK "Foo"), V.shSubject, V.shThis) ∈ c6state.S ∧
    (ruleNode (BRICK "Foo"), V.shPredicate, V.A) ∈ c6state.S ∧
    (ruleNode (BRICK "Foo"), V.shObject, BRICK "Foo") ∈ c6state.S ∧
    -- its sole condition is the "has tag T1" detection condition
    c6state.S.filter (fun tr => tr.1 = ruleNode (BRICK "Foo") ∧ tr.2.1 = V.shCondition)
      = {(ruleNode (BRICK "Foo"), V.shCondition, condNode (TAGNS "T1"))} ∧
    (condNode (TAGNS "T1"), V.shProperty, propNode (TAGNS "T1")) ∈ c6state.S ∧
    (propNode (TAGNS "T1"), V.shPath, V.brickHasTag) ∈ c6state.S ∧
    (propNode (TAGNS "T1"), V.shQualifiedValueShape, Term.anon 0) ∈ c6state.S ∧
    (Term.anon 0, V.shHasValue, TAGNS "T1") ∈ c6state.S ∧
    -- the cardinality target: the exactly-1-tag shape
    (scNode (BRICK "Foo"), V.shTargetClass, cardCondNode 1) ∈ c6state.S ∧
    (cardCondNode 1, V.shProperty, cardPropNode 1) ∈ c6state.S ∧
    (cardPropNode 1, V.shPath, V.brickHasTag) ∈ c6state.S ∧
    (cardPropNode 1, V.shMinCount, Term.litNat 1) ∈ c6state.S ∧
    (cardPropNode 1, V.shMaxCount, Term.litNat 1) ∈ c6state.S :=
  by
  repeat
    refine And.intro (by decide) ?_
  decide

/-! ## Claim C7: idempotent, first-writer-wins label assignment -/

attribute [simp] NS.brick NS.bsh NS.tag NS.rdf NS.rdfs NS.owl NS.sh NS.skos
  NS.qudt NS.sosa BRICK BSH TAGNS V.A V.rdfFirst V.rdfRest V.rdfNil
  V.rdfsLabel V.rdfsSubClassOf V.rdfsSubPropertyOf V.owlClass
  V.owlObjectProperty V.owlDatatypeProperty V.owlDeprecated V.shNodeShape
  V.shPropertyShape V.shTripleRule V.shRule V.shSubject V.shPredicate
  V.shObject V.shCondition V.shProperty V.shPath V.shClass V.shOr V.shIn
  V.shNode V.shDatatype V.shMinCount V.shMaxCount V.shQualifiedValueShape
  V.shQualifiedMinCount V.shHasValue V.shTargetClass V.shTargetSubjectsOf
  V.shThis V.skosBroader V.skosNarrower V.skosRelated V.qudtApplicableUnit
  V.brickEntity V.brickTag V.brickQuantity V.brickHasTag
  V.brickHasAssociatedTag V.brickHasQUDTReference V.brickEntityProperty
  V.brickDeprecatedInVersion V.brickDeprecationMitigationMessage
  V.brickIsReplacedBy V.brickRelationship V.bshNumericValue

/-- Label statements pass through `classBase` unchanged. -/
theorem classBase_label {st : St} {c p x ℓ : Term} :
    (x, V.rdfsLabel, ℓ) ∈ (classBase st c p).G ↔ (x, V.rdfsLabel, ℓ) ∈ st.G := by
  show (x, V.rdfsLabel, ℓ) ∈ st.G.addAll _ ↔ _
  rw [mem_addAll]
  simp

/-! ### String facts for the deterministically derived names -/

theorem str_data_eq {a b : String} (h : a.data = b.data) : a = b := by
  cases a; cases b; simp_all

theorem str_append_left_cancel {a b c : String} (h : c ++ a = c ++ b) : a = b := by
  apply str_data_eq
  have h2 := congrArg String.data h
  rw [String.data_append, String.data_append] at h2
  exact List.append_cancel_left h2

theorem str_append_right_cancel {a b c : String} (h : a ++ c = b ++ c) : a = b := by
  apply str_data_eq
  have h2 := congrArg String.data h
  rw [String.data_append, String.data_append] at h2
  exact List.append_cancel_right h2

theorem BRICK_inj {a b : String} (h : BRICK a = BRICK b) : a = b := by
  simp only [BRICK, Term.uri.injEq] at h
  exact str_append_left_cancel h

/-! ### Generic fold lemmas -/

theorem addAll_append (g : Graph) (a b : List Triple) :
    g.addAll (a ++ b) = (g.addAll a).addAll b := by
  simp [Graph.addAll, List.foldl_append]

theorem mem_foldl_add {α : Type} (f : α → Triple) (ts : List α) (g : Graph)
    (x : Triple) :
    x ∈ ts.foldl (fun g t => g.add (f t)) g ↔ x ∈ g ∨ ∃ t ∈ ts, x = f t := by
  induction ts generalizing g with
  | nil => simp
  | cons t rest ih =>
    rw [List.foldl_cons, ih, mem_add]
    simp only [List.mem_cons]
    aesop

/-! ### Label-slice tracking through each compiler step -/

/-- `classLabelStep` leaves the state unchanged when a label exists. -/
theorem classLabelStep_of_hasLabel {st : St} {c : Term}
    (h : hasLabel st.G c = true) : classLabelStep st c = st := by
  simp [classLabelStep, h]

theorem classLabelStep_G_mono {st : St} {c : Term} :
    st.G ⊆ (classLabelStep st c).G := by
  unfold classLabelStep
  split
  · exact fun _ h => h
  · exact subset_add _ _

theorem classLabelStep_label_analysis {st : St} {c x ℓ : Term}
    (h : (x, V.rdfsLabel, ℓ) ∈ (classLabelStep st c).G) :
    (x, V.rdfsLabel, ℓ) ∈ st.G ∨ (x = c ∧ ℓ = autoLabel c) := by
  unfold classLabelStep at h
  split at h
  · exact Or.inl h
  · rcases mem_add.1 h with h | h
    · simp only [Prod.mk.injEq] at h
      exact Or.inr ⟨h.1, h.2.2⟩
    · exact Or.inl h

theorem classLabelStep_labeled (st : St) (c : Term) :
    ∃ ℓ, (c, V.rdfsLabel, ℓ) ∈ (classLabelStep st c).G := by
  unfold classLabelStep
  split
  · next h => exact (hasLabel_iff _ _).1 h
  · exact ⟨autoLabel c, mem_add.2 (Or.inl rfl)⟩

theorem punStep_label {st : St} {c x ℓ : Term} {pun : Bool} :
    (x, V.rdfsLabel, ℓ) ∈ (punStep st c pun).G ↔ (x, V.rdfsLabel, ℓ) ∈ st.G := by
  unfold punStep
  split
  · rw [mem_add]
    simp
  · exact Iff.rfl

theorem punStep_G_mono {st : St} {c : Term} {pun : Bool} :
    st.G ⊆ (punStep st c pun).G := by
  unfold punStep
  split
  · exact subset_add _ _
  · exact fun _ h => h

theorem parentsStep_mem {st : St} {c : Term} {parents : List Term} {x : Triple} :
    x ∈ (parentsStep st c parents).G ↔
      x ∈ st.G ∨ ∃ p ∈ parents, x = (c, V.rdfsSubClassOf, p) := by
  unfold parentsStep
  exact mem_foldl_add (fun p => (c, V.rdfsSubClassOf, p)) parents st.G x

theorem parentsStep_label {st : St} {c x ℓ : Term} {parents : List Term} :
    (x, V.rdfsLabel, ℓ) ∈ (parentsStep st c parents).G ↔
      (x, V.rdfsLabel, ℓ) ∈ st.G := by
  rw [parentsStep_mem]
  simp

/-- The pass-through triples emitted for the remaining property-value pairs
of one class definition. -/
def propTriples (c : Term) (props : List (Term × PropVal)) : List Triple :=
  props.flatMap (fun pv =>
    match pv.2 with
    | .one t => [(c, pv.1, t)]
    | .many ts => ts.map (fun t => (c, pv.1, t)))

theorem props_foldl_mem (c : Term) (props : List (Term × PropVal)) (g : Graph)
    (x : Triple) :
    x ∈ props.foldl (fun g pv =>
      match pv.2 with
      | .one t => g.add (c, pv.1, t)
      | .many ts => ts.foldl (fun g t => g.add (c, pv.1, t)) g) g ↔
      x ∈ g ∨ x ∈ propTriples c props := by
  induction props generalizing g with
  | nil => simp [propTriples]
  | cons pv rest ih =>
    rcases pv with ⟨p, v⟩
    rw [List.foldl_cons, ih]
    cases v with
    | one t =>
      simp only [propTriples, List.flatMap_cons, List.mem_append, mem_add,
        List.mem_singleton]
      tauto
    | many ts =>
      rw [mem_foldl_add (fun t => (c, p, t)) ts g x]
      simp only [propTriples, List.flatMap_cons, List.mem_append, List.mem_map]
      aesop

theorem classPropsStep_mem {st : St} {c : Term} {props : List (Term × PropVal)}
    {x : Triple} :
    x ∈ (classPropsStep st c props).G ↔ x ∈ st.G ∨ x ∈ propTriples c props :=
  props_foldl_mem c props st.G x

/-- The label statements among the pass-through property-value pairs. -/
def propLabelTriples (c : Term) (props : List (Term × PropVal)) : List Triple :=
  (propTriples c props).filter (fun tr => tr.2.1 = V.rdfsLabel)

theorem classPropsStep_label {st : St} {c x ℓ : Term}
    {props : List (Term × PropVal)} :
    (x, V.rdfsLabel, ℓ) ∈ (classPropsStep st c props).G ↔
      (x, V.rdfsLabel, ℓ) ∈ st.G ∨ (x, V.rdfsLabel, ℓ) ∈ propLabelTriples c props := by
  rw [classPropsStep_mem, propLabelTriples]
  simp [List.mem_filter]

/-- The six statements of the `classrule` block (lines 153–159), emitted
into `G` for every (class, tag) pair. -/
def classruleTriples (klass tag : Term) : List Triple :=
  [(klass, V.A, V.shNodeShape),
   (klass, V.shRule, Term.bnode ("add_" ++ tag.localName ++ "_to_" ++ klass.localName)),
   (Term.bnode ("add_" ++ tag.localName ++ "_to_" ++ klass.localName), V.A, V.shTripleRule),
   (Term.bnode ("add_" ++ tag.localName ++ "_to_" ++ klass.localName), V.shSubject, V.shThis),
   (Term.bnode ("add_" ++ tag.localName ++ "_to_" ++ klass.localName), V.shPredicate, V.brickHasTag),
   (Term.bnode ("add_" ++ tag.localName ++ "_to_" ++ klass.localName), V.shObject, tag)]

theorem tagCreate_G (st : St) (r t : Term) : (tagCreate st r t).G = st.G := rfl

theorem cardBlock_G (st : St) (n : Nat) : (cardBlock st n).G = st.G := by
  unfold cardBlock
  split <;> rfl

theorem tagLoopStep_G (k r : Term) (st : St) (t : Term) :
    (tagLoopStep k r st t).G = st.G.addAll (classruleTriples k t) := by
  unfold tagLoopStep classruleTriples
  dsimp only
  split <;> rfl

theorem foldl_tagLoop_G (k r : Term) (tags : List Term) (st : St) :
    (tags.foldl (tagLoopStep k r) st).G
      = st.G.addAll (tags.flatMap (classruleTriples k)) := by
  induction tags generalizing st with
  | nil => simp [Graph.addAll]
  | cons t rest ih =>
    rw [List.foldl_cons, ih, tagLoopStep_G, List.flatMap_cons, addAll_append]

theorem foldl_g1_G (k : Term) (tags : List Term) (st : St) :
    (tags.foldl (fun s tag => { s with G := s.G.addAll (g1triples k tag) }) st)
      = { st with G := st.G.addAll (tags.flatMap (g1triples k)) } := by
  induction tags generalizing st with
  | nil => simp [Graph.addAll]
  | cons t rest ih =>
    rw [List.foldl_cons, ih, List.flatMap_cons, addAll_append]

theorem addTags_G_mem {st : St} {k : Term} {tags : List Term} {x : Triple} :
    x ∈ (addTags st k tags).G ↔
      x ∈ st.G ∨ ∃ t ∈ tags, x ∈ g1triples k t ∨ x ∈ classruleTriples k t := by
  unfold addTags
  split
  · next h =>
    rw [List.length_eq_zero] at h
    subst h
    simp
  · rw [show ∀ s : St, ({ s with S := s.S.add _ } : St).G = s.G from fun _ => rfl,
      cardBlock_G, foldl_tagLoop_G, foldl_g1_G]
    simp only [mem_addAll, List.mem_flatMap]
    constructor
    · rintro ((h | ⟨t, ht, hx⟩) | ⟨t, ht, hx⟩)
      · exact Or.inl h
      · exact Or.inr ⟨t, ht, Or.inl hx⟩
      · exact Or.inr ⟨t, ht, Or.inr hx⟩
    · rintro (h | ⟨t, ht, hx | hx⟩)
      · exact Or.inl (Or.inl h)
      · exact Or.inl (Or.inr ⟨t, ht, hx⟩)
      · exact Or.inr ⟨t, ht, hx⟩

theorem addTags_G_mono {st : St} {k : Term} {tags : List Term} :
    st.G ⊆ (addTags st k tags).G :=
  fun _ hx => addTags_G_mem.2 (Or.inl hx)

theorem addTags_label {st : St} {k x ℓ : Term} {tags : List Term} :
    (x, V.rdfsLabel, ℓ) ∈ (addTags st k tags).G ↔
      (x, V.rdfsLabel, ℓ) ∈ st.G ∨
        ∃ t ∈ tags, x = t ∧ ℓ = Term.litStr t.localName := by
  rw [addTags_G_mem]
  simp only [g1triples, classruleTriples, List.mem_cons, List.not_mem_nil,
    or_false, Prod.mk.injEq]
  constructor
  · rintro (h | ⟨t, ht, hx⟩)
    · exact Or.inl h
    · right
      refine ⟨t, ht, ?_⟩
      simp at hx
      exact hx
  · rintro (h | ⟨t, ht, rfl, rfl⟩)
    · exact Or.inl h
    · exact Or.inr ⟨x, ht, by simp⟩

theorem mkCollection_label : ∀ (items : List Term) (g : Graph) (nx : Nat)
    (head x ℓ : Term),
    ((x, V.rdfsLabel, ℓ) ∈ (mkCollection g nx head items).1 ↔
      (x, V.rdfsLabel, ℓ) ∈ g)
  | [], g, nx, head, x, ℓ => Iff.rfl
  | [t], g, nx, head, x, ℓ => by
    simp [mkCollection, mem_addAll]
  | t :: u :: rest, g, nx, head, x, ℓ => by
    rw [mkCollection, mkCollection_label (u :: rest)]
    simp [mem_addAll]

theorem mkCollection_G_mono : ∀ (items : List Term) (g : Graph) (nx : Nat)
    (head : Term), g ⊆ (mkCollection g nx head items).1
  | [], g, nx, head => fun _ h => h
  | [t], g, nx, head => subset_addAll _ _
  | t :: u :: rest, g, nx, head =>
    subset_trans (subset_addAll _ _) (mkCollection_G_mono (u :: rest) _ _ _)

theorem constrBuild_label (vs : List Term) (acc : Graph × Nat × List Term)
    (x ℓ : Term) :
    ((x, V.rdfsLabel, ℓ) ∈ (vs.foldl (fun (acc : Graph × Nat × List Term) pv =>
        (acc.1.add (Term.anon acc.2.1, V.shClass, pv), acc.2.1 + 1,
          acc.2.2 ++ [Term.anon acc.2.1])) acc).1 ↔
      (x, V.rdfsLabel, ℓ) ∈ acc.1) := by
  induction vs generalizing acc with
  | nil => exact Iff.rfl
  | cons v rest ih =>
    rw [List.foldl_cons, ih, mem_add]
    simp

theorem constrBuild_mono (vs : List Term) (acc : Graph × Nat × List Term) :
    acc.1 ⊆ (vs.foldl (fun (acc : Graph × Nat × List Term) pv =>
        (acc.1.add (Term.anon acc.2.1, V.shClass, pv), acc.2.1 + 1,
          acc.2.2 ++ [Term.anon acc.2.1])) acc).1 := by
  induction vs generalizing acc with
  | nil => exact fun _ h => h
  | cons v rest ih =>
    rw [List.foldl_cons]
    exact subset_trans (subset_add acc.1 (Term.anon acc.2.1, V.shClass, v))
      (ih (acc.1.add (Term.anon acc.2.1, V.shClass, v), acc.2.1 + 1,
        acc.2.2 ++ [Term.anon acc.2.1]))

theorem defineConstraint_label {st : St} {c pn x ℓ : Term} {al : Allowed} :
    (x, V.rdfsLabel, ℓ) ∈ (defineConstraint st c pn al).G ↔
      (x, V.rdfsLabel, ℓ) ∈ st.G := by
  unfold defineConstraint
  cases al with
  | single v =>
    dsimp only
    rw [mem_add, mem_addAll]
    simp
  | listOf vs =>
    dsimp only
    rw [mkCollection_label, constrBuild_label, mem_add, mem_addAll]
    simp

theorem defineConstraint_G_mono {st : St} {c pn : Term} {al : Allowed} :
    st.G ⊆ (defineConstraint st c pn al).G := by
  unfold defineConstraint
  cases al with
  | single v =>
    exact subset_trans (subset_addAll _ _) (subset_add _ _)
  | listOf vs =>
    dsimp only
    intro x hx
    apply mkCollection_G_mono
    apply constrBuild_mono
    exact mem_add.2 (Or.inr (mem_addAll.2 (Or.inl hx)))

theorem defineConstraints_label {st : St} {c x ℓ : Term}
    {cs : List (Term × Allowed)} :
    (x, V.rdfsLabel, ℓ) ∈ (defineConstraints st cs c).G ↔
      (x, V.rdfsLabel, ℓ) ∈ st.G := by
  unfold defineConstraints
  induction cs generalizing st with
  | nil => exact Iff.rfl
  | cons pc rest ih =>
    rw [List.foldl_cons, ih, defineConstraint_label]

theorem defineConstraints_G_mono {st : St} {c : Term} {cs : List (Term × Allowed)} :
    st.G ⊆ (defineConstraints st cs c).G := by
  unfold defineConstraints
  induction cs generalizing st with
  | nil => exact fun _ h => h
  | cons pc rest ih =>
    rw [List.foldl_cons]
    exact subset_trans defineConstraint_G_mono (ih)

/-! ### Collecting names, tags and explicit labels from a definition tree -/

mutual
/-- All class names defined anywhere in the tree. -/
def ClassDefs.names : ClassDefs → List String
  | .nil => []
  | .cons n d rest => n :: (ClassDef.namesUnder d ++ ClassDefs.names rest)

/-- The class names defined strictly below one definition node. -/
def ClassDef.namesUnder : ClassDef → List String
  | .mk _ subs _ _ _ => ClassDefs.names subs
end

mutual
/-- All tag terms appearing anywhere in the tree. -/
def ClassDefs.tagTerms : ClassDefs → List Term
  | .nil => []
  | .cons _ d rest => ClassDef.tagTermsUnder d ++ ClassDefs.tagTerms rest

def ClassDef.tagTermsUnder : ClassDef → List Term
  | .mk tags subs _ _ _ => tags ++ ClassDefs.tagTerms subs
end

mutual
/-- The label statements the run emits unconditionally: tag labels and
explicit pass-through `RDFS.label` pairs. -/
def ClassDefs.staticLabels : ClassDefs → List Triple
  | .nil => []
  | .cons n d rest => ClassDef.staticLabelsUnder d n ++ ClassDefs.staticLabels rest

def ClassDef.staticLabelsUnder : ClassDef → String → List Triple
  | .mk tags subs _ _ props, n =>
    tags.map (fun t => (t, V.rdfsLabel, Term.litStr t.localName))
      ++ propLabelTriples (BRICK n) props ++ ClassDefs.staticLabels subs
end

mutual
/-- No definition node passes an explicit `RDFS.label` pair through the
open property-value section. -/
def ClassDefs.labelKeyFree : ClassDefs → Bool
  | .nil => true
  | .cons _ d rest => ClassDef.labelKeyFreeUnder d && ClassDefs.labelKeyFree rest

def ClassDef.labelKeyFreeUnder : ClassDef → Bool
  | .mk _ subs _ _ props =>
    props.all (fun pv => pv.1 != V.rdfsLabel) && ClassDefs.labelKeyFree subs
end

/-! ### The main label lemmas, by mutual induction on the definition tree -/

mutual
theorem defineClasses_G_mono : ∀ (defs : ClassDefs) (st : St) (parent : Term)
    (pun : Bool), st.G ⊆ (defineClasses st defs parent pun).G
  | .nil, st, parent, pun => fun _ h => h
  | .cons n d rest, st, parent, pun => by
    rw [defineClasses]
    exact subset_trans (defineClass_G_mono d st n parent pun)
      (defineClasses_G_mono rest _ parent pun)

theorem defineClass_G_mono : ∀ (d : ClassDef) (st : St) (name : String)
    (parent : Term) (pun : Bool), st.G ⊆ (defineClass st name d parent pun).G
  | .mk tags subs parents cs props, st, name, parent, pun => by
    rw [defineClass]
    intro x hx
    apply classPropsStep_mem.2
    left
    apply defineConstraints_G_mono
    apply parentsStep_mem.2
    left
    apply defineClasses_G_mono subs
    apply addTags_G_mono
    apply punStep_G_mono
    apply classLabelStep_G_mono
    exact mem_addAll.2 (Or.inl hx)
end

theorem classPropsStep_G_mono {st : St} {c : Term} {props : List (Term × PropVal)} :
    st.G ⊆ (classPropsStep st c props).G :=
  fun _ hx => classPropsStep_mem.2 (Or.inl hx)

theorem parentsStep_G_mono {st : St} {c : Term} {parents : List Term} :
    st.G ⊆ (parentsStep st c parents).G :=
  fun _ hx => parentsStep_mem.2 (Or.inl hx)

/-- The tail of `defineClass` (after `addTags`) preserves membership of a
statement, and so does the head up to the labelled steps; convenience
composition for persistence arguments. -/
theorem defineClass_tail_mono {st : St} {c : Term} {parents : List Term}
    {cs : List (Term × Allowed)} {props : List (Term × PropVal)} {x : Triple}
    (h : x ∈ st.G) :
    x ∈ (classPropsStep (defineConstraints (parentsStep st c parents) cs c)
      c props).G :=
  classPropsStep_G_mono (defineConstraints_G_mono (parentsStep_G_mono h))

/-- `defineClass` unfolded into its composition of steps. -/
theorem defineClass_eq (st : St) (name : String) (tags : List Term)
    (subs : ClassDefs) (parents : List Term) (cs : List (Term × Allowed))
    (props : List (Term × PropVal)) (parent : Term) (pun : Bool) :
    defineClass st name (.mk tags subs parents cs props) parent pun =
      classPropsStep (defineConstraints (parentsStep (defineClasses
        (addTags (punStep (classLabelStep (classBase st (BRICK name) parent)
          (BRICK name)) (BRICK name) pun) (BRICK name) tags)
        subs (BRICK name) false) (BRICK name) parents) cs (BRICK name))
        (BRICK name) props := rfl

mutual
theorem defineClasses_labeled : ∀ (defs : ClassDefs) (st : St) (parent : Term)
    (pun : Bool) (n : String), n ∈ ClassDefs.names defs →
    ∃ ℓ, (BRICK n, V.rdfsLabel, ℓ) ∈ (defineClasses st defs parent pun).G
  | .nil, _, _, _, _, hn => absurd hn (by simp [ClassDefs.names])
  | .cons n0 d rest, st, parent, pun, n, hn => by
    rw [defineClasses]
    rw [ClassDefs.names, List.mem_cons, List.mem_append] at hn
    rcases hn with h | hn | hn
    · obtain ⟨ℓ, hℓ⟩ := defineClass_labeled d st n0 parent pun n (Or.inl h)
      exact ⟨ℓ, defineClasses_G_mono rest _ parent pun hℓ⟩
    · obtain ⟨ℓ, hℓ⟩ := defineClass_labeled d st n0 parent pun n (Or.inr hn)
      exact ⟨ℓ, defineClasses_G_mono rest _ parent pun hℓ⟩
    · exact defineClasses_labeled rest _ parent pun n hn

theorem defineClass_labeled : ∀ (d : ClassDef) (st : St) (name : String)
    (parent : Term) (pun : Bool) (n : String),
    (n = name ∨ n ∈ ClassDef.namesUnder d) →
    ∃ ℓ, (BRICK n, V.rdfsLabel, ℓ) ∈ (defineClass st name d parent pun).G
  | .mk tags subs parents cs props, st, name, parent, pun, n, hn => by
    rw [defineClass_eq]
    rcases hn with rfl | hn
    · obtain ⟨ℓ, hℓ⟩ := classLabelStep_labeled (classBase st (BRICK n) parent) (BRICK n)
      refine ⟨ℓ, defineClass_tail_mono ?_⟩
      exact defineClasses_G_mono subs _ _ false (addTags_G_mono (punStep_G_mono hℓ))
    · rw [ClassDef.namesUnder] at hn
      obtain ⟨ℓ, hℓ⟩ := defineClasses_labeled subs
        (addTags (punStep (classLabelStep (classBase st (BRICK name) parent)
          (BRICK name)) (BRICK name) pun) (BRICK name) tags) (BRICK name) false n hn
      exact ⟨ℓ, defineClass_tail_mono hℓ⟩
end

mutual
theorem defineClasses_static : ∀ (defs : ClassDefs) (st : St) (parent : Term)
    (pun : Bool) (tr : Triple), tr ∈ ClassDefs.staticLabels defs →
    tr ∈ (defineClasses st defs parent pun).G
  | .nil, _, _, _, _, htr => absurd htr (by simp [ClassDefs.staticLabels])
  | .cons n0 d rest, st, parent, pun, tr, htr => by
    rw [defineClasses]
    rw [ClassDefs.staticLabels, List.mem_append] at htr
    rcases htr with htr | htr
    · exact defineClasses_G_mono rest _ parent pun
        (defineClass_static d st n0 parent pun tr htr)
    · exact defineClasses_static rest _ parent pun tr htr

theorem defineClass_static : ∀ (d : ClassDef) (st : St) (name : String)
    (parent : Term) (pun : Bool) (tr : Triple),
    tr ∈ ClassDef.staticLabelsUnder d name →
    tr ∈ (defineClass st name d parent pun).G
  | .mk tags subs parents cs props, st, name, parent, pun, tr, htr => by
    rw [defineClass_eq]
    rw [ClassDef.staticLabelsUnder, List.mem_append, List.mem_append] at htr
    rcases htr with (htr | htr) | htr
    · -- a tag label, emitted by add_tags
      rw [List.mem_map] at htr
      obtain ⟨t, ht, rfl⟩ := htr
      refine defineClass_tail_mono (defineClasses_G_mono subs _ _ false ?_)
      refine addTags_G_mem.2 (Or.inr ⟨t, ht, Or.inl ?_⟩)
      simp [g1triples]
    · -- an explicit pass-through label
      exact classPropsStep_mem.2 (Or.inr (List.mem_filter.1 htr).1)
    · -- a label from a nested definition
      refine defineClass_tail_mono ?_
      exact defineClasses_static subs _ _ false tr htr
end

mutual
theorem defineClasses_label_analysis : ∀ (defs : ClassDefs) (st : St)
    (parent : Term) (pun : Bool) (x ℓ : Term),
    (x, V.rdfsLabel, ℓ) ∈ (defineClasses st defs parent pun).G →
    (x, V.rdfsLabel, ℓ) ∈ st.G ∨
      (∃ n ∈ ClassDefs.names defs, x = BRICK n ∧ ℓ = autoLabel (BRICK n)) ∨
      (x, V.rdfsLabel, ℓ) ∈ ClassDefs.staticLabels defs
  | .nil, st, parent, pun, x, ℓ, h => Or.inl h
  | .cons n0 d rest, st, parent, pun, x, ℓ, h => by
    rw [defineClasses] at h
    rcases defineClasses_label_analysis rest _ parent pun x ℓ h with h | h | h
    · rcases defineClass_label_analysis d st n0 parent pun x ℓ h with h | ⟨n, hn, hx⟩ | h
      · exact Or.inl h
      · refine Or.inr (Or.inl ⟨n, ?_, hx⟩)
        rw [ClassDefs.names, List.mem_cons, List.mem_append]
        tauto
      · refine Or.inr (Or.inr ?_)
        rw [ClassDefs.staticLabels, List.mem_append]
        exact Or.inl h
    · obtain ⟨n, hn, hx⟩ := h
      refine Or.inr (Or.inl ⟨n, ?_, hx⟩)
      rw [ClassDefs.names, List.mem_cons, List.mem_append]
      tauto
    · refine Or.inr (Or.inr ?_)
      rw [ClassDefs.staticLabels, List.mem_append]
      exact Or.inr h

theorem defineClass_label_analysis : ∀ (d : ClassDef) (st : St) (name : String)
    (parent : Term) (pun : Bool) (x ℓ : Term),
    (x, V.rdfsLabel, ℓ) ∈ (defineClass st name d parent pun).G →
    (x, V.rdfsLabel, ℓ) ∈ st.G ∨
      (∃ n, (n = name ∨ n ∈ ClassDef.namesUnder d) ∧ x = BRICK n ∧
        ℓ = autoLabel (BRICK n)) ∨
      (x, V.rdfsLabel, ℓ) ∈ ClassDef.staticLabelsUnder d name
  | .mk tags subs parents cs props, st, name, parent, pun, x, ℓ, h => by
    rw [defineClass_eq] at h
    rw [ClassDef.staticLabelsUnder, List.mem_append, List.mem_append]
    rcases classPropsStep_label.1 h with h | h
    · rw [defineConstraints_label, parentsStep_label] at h
      rcases defineClasses_label_analysis subs _ _ false x ℓ h with h | ⟨n, hn, hx⟩ | h
      · rcases addTags_label.1 h with h | ⟨t, ht, rfl, rfl⟩
        · rw [punStep_label] at h
          rcases classLabelStep_label_analysis h with h | ⟨rfl, rfl⟩
          · rw [classBase_label] at h
            exact Or.inl h
          · exact Or.inr (Or.inl ⟨name, Or.inl rfl, rfl, rfl⟩)
        · refine Or.inr (Or.inr (Or.inl (Or.inl ?_)))
          exact List.mem_map.2 ⟨x, ht, rfl⟩
      · exact Or.inr (Or.inl ⟨n, Or.inr (by rwa [ClassDef.namesUnder]), hx⟩)
      · exact Or.inr (Or.inr (Or.inr h))
    · exact Or.inr (Or.inr (Or.inl (Or.inr h)))
end

mutual
theorem defineClasses_label_stable : ∀ (defs : ClassDefs) (st : St)
    (parent : Term) (pun : Bool),
    (∀ n ∈ ClassDefs.names defs, ∃ ℓ, (BRICK n, V.rdfsLabel, ℓ) ∈ st.G) →
    (∀ tr ∈ ClassDefs.staticLabels defs, tr ∈ st.G) →
    ∀ x ℓ, ((x, V.rdfsLabel, ℓ) ∈ (defineClasses st defs parent pun).G ↔
      (x, V.rdfsLabel, ℓ) ∈ st.G)
  | .nil, st, parent, pun, hl, hs, x, ℓ => Iff.rfl
  | .cons n0 d rest, st, parent, pun, hl, hs, x, ℓ => by
    rw [defineClasses]
    have hl0 : ∀ n, (n = n0 ∨ n ∈ ClassDef.namesUnder d) →
        ∃ ℓ, (BRICK n, V.rdfsLabel, ℓ) ∈ st.G := by
      intro n hn
      refine hl n ?_
      rw [ClassDefs.names, List.mem_cons, List.mem_append]
      tauto
    have hs0 : ∀ tr ∈ ClassDef.staticLabelsUnder d n0, tr ∈ st.G := by
      intro tr htr
      refine hs tr ?_
      rw [ClassDefs.staticLabels, List.mem_append]
      exact Or.inl htr
    have h1 := defineClass_label_stable d st n0 parent pun hl0 hs0
    have h2 := defineClasses_label_stable rest (defineClass st n0 d parent pun)
      parent pun
      (fun n hn => by
        obtain ⟨ℓ', hℓ'⟩ := hl n (by
          rw [ClassDefs.names, List.mem_cons, List.mem_append]; tauto)
        exact ⟨ℓ', defineClass_G_mono d st n0 parent pun hℓ'⟩)
      (fun tr htr => defineClass_G_mono d st n0 parent pun (hs tr (by
        rw [ClassDefs.staticLabels, List.mem_append]; exact Or.inr htr)))
    rw [h2 x ℓ, h1 x ℓ]

theorem defineClass_label_stable : ∀ (d : ClassDef) (st : St) (name : String)
    (parent : Term) (pun : Bool),
    (∀ n, (n = name ∨ n ∈ ClassDef.namesUnder d) →
      ∃ ℓ, (BRICK n, V.rdfsLabel, ℓ) ∈ st.G) →
    (∀ tr ∈ ClassDef.staticLabelsUnder d name, tr ∈ st.G) →
    ∀ x ℓ, ((x, V.rdfsLabel, ℓ) ∈ (defineClass st name d parent pun).G ↔
      (x, V.rdfsLabel, ℓ) ∈ st.G)
  | .mk tags subs parents cs props, st, name, parent, pun, hl, hs, x, ℓ => by
    rw [defineClass_eq]
    -- the guard: the class already has a label, so classLabelStep is a no-op
    obtain ⟨ℓ0, hℓ0⟩ := hl name (Or.inl rfl)
    have hguard : classLabelStep (classBase st (BRICK name) parent) (BRICK name)
        = classBase st (BRICK name) parent := by
      apply classLabelStep_of_hasLabel
      exact (hasLabel_iff _ _).2 ⟨ℓ0, mem_addAll.2 (Or.inl hℓ0)⟩
    rw [hguard]
    -- static labels below this node
    rw [ClassDef.staticLabelsUnder] at hs
    have hstag : ∀ t ∈ tags, (t, V.rdfsLabel, Term.litStr t.localName) ∈ st.G := by
      intro t ht
      refine hs _ ?_
      rw [List.mem_append, List.mem_append]
      exact Or.inl (Or.inl (List.mem_map.2 ⟨t, ht, rfl⟩))
    have hsprop : ∀ tr ∈ propLabelTriples (BRICK name) props, tr ∈ st.G := by
      intro tr htr
      refine hs _ ?_
      rw [List.mem_append, List.mem_append]
      exact Or.inl (Or.inr htr)
    have hssub : ∀ tr ∈ ClassDefs.staticLabels subs, tr ∈ st.G := by
      intro tr htr
      refine hs _ ?_
      rw [List.mem_append, List.mem_append]
      exact Or.inr htr
    -- name the intermediate states
    set st3 := punStep (classBase st (BRICK name) parent) (BRICK name) pun with hst3
    have hmono3 : st.G ⊆ st3.G := by
      intro y hy
      exact punStep_G_mono (mem_addAll.2 (Or.inl hy))
    set st4 := addTags st3 (BRICK name) tags with hst4
    have hmono4 : st.G ⊆ st4.G := subset_trans hmono3 addTags_G_mono
    have h4 : ∀ y ℓ', ((y, V.rdfsLabel, ℓ') ∈ st4.G ↔ (y, V.rdfsLabel, ℓ') ∈ st3.G) := by
      intro y ℓ'
      rw [hst4, addTags_label]
      constructor
      · rintro (h | ⟨t, ht, rfl, rfl⟩)
        · exact h
        · exact hmono3 (hstag y ht)
      · exact Or.inl
    have h5 := defineClasses_label_stable subs st4 (BRICK name) false
      (fun n hn => by
        obtain ⟨ℓ', hℓ'⟩ := hl n (Or.inr (by rwa [ClassDef.namesUnder]))
        exact ⟨ℓ', hmono4 hℓ'⟩)
      (fun tr htr => hmono4 (hssub tr htr))
    rw [classPropsStep_label, defineConstraints_label, parentsStep_label,
      h5 x ℓ, h4 x ℓ, punStep_label, classBase_label]
    constructor
    · rintro (h | h)
      · exact h
      · exact hsprop _ h
    · exact Or.inl
end

theorem propTriples_shape {c : Term} {props : List (Term × PropVal)} {tr : Triple}
    (h : tr ∈ propTriples c props) : ∃ pv ∈ props, tr.1 = c ∧ tr.2.1 = pv.1 := by
  rw [propTriples, List.mem_flatMap] at h
  obtain ⟨pv, hpv, htr⟩ := h
  refine ⟨pv, hpv, ?_⟩
  rcases pv with ⟨p, v⟩
  cases v with
  | one t =>
    simp only [List.mem_singleton] at htr
    subst htr
    exact ⟨rfl, rfl⟩
  | many ts =>
    rw [List.mem_map] at htr
    obtain ⟨t, _, rfl⟩ := htr
    exact ⟨rfl, rfl⟩

theorem propLabelTriples_nil {c : Term} {props : List (Term × PropVal)}
    (h : props.all (fun pv => pv.1 != V.rdfsLabel) = true) {tr : Triple} :
    tr ∉ propLabelTriples c props := by
  intro htr
  rw [propLabelTriples, List.mem_filter] at htr
  obtain ⟨pv, hpv, _, hpred⟩ := propTriples_shape htr.1
  have := List.all_eq_true.1 h pv hpv
  rw [bne_iff_ne] at this
  apply this
  rw [← hpred]
  exact of_decide_eq_true htr.2

mutual
/-- When no explicit labels are passed through, every statically emitted
label is a tag label. -/
theorem defineClasses_static_shape : ∀ (defs : ClassDefs),
    ClassDefs.labelKeyFree defs = true → ∀ tr ∈ ClassDefs.staticLabels defs,
    ∃ t ∈ ClassDefs.tagTerms defs, tr = (t, V.rdfsLabel, Term.litStr t.localName)
  | .nil, _, tr, htr => absurd htr (by simp [ClassDefs.staticLabels])
  | .cons n0 d rest, hfree, tr, htr => by
    rw [ClassDefs.labelKeyFree, Bool.and_eq_true] at hfree
    rw [ClassDefs.staticLabels, List.mem_append] at htr
    rcases htr with htr | htr
    · obtain ⟨t, ht, rfl⟩ := defineClass_static_shape d n0 hfree.1 tr htr
      refine ⟨t, ?_, rfl⟩
      rw [ClassDefs.tagTerms, List.mem_append]
      exact Or.inl ht
    · obtain ⟨t, ht, rfl⟩ := defineClasses_static_shape rest hfree.2 tr htr
      refine ⟨t, ?_, rfl⟩
      rw [ClassDefs.tagTerms, List.mem_append]
      exact Or.inr ht

theorem defineClass_static_shape : ∀ (d : ClassDef) (name : String),
    ClassDef.labelKeyFreeUnder d = true →
    ∀ tr ∈ ClassDef.staticLabelsUnder d name,
    ∃ t ∈ ClassDef.tagTermsUnder d, tr = (t, V.rdfsLabel, Term.litStr t.localName)
  | .mk tags subs parents cs props, name, hfree, tr, htr => by
    rw [ClassDef.labelKeyFreeUnder, Bool.and_eq_true] at hfree
    rw [ClassDef.staticLabelsUnder, List.mem_append, List.mem_append] at htr
    rw [ClassDef.tagTermsUnder]
    rcases htr with (htr | htr) | htr
    · rw [List.mem_map] at htr
      obtain ⟨t, ht, rfl⟩ := htr
      exact ⟨t, List.mem_append.2 (Or.inl ht), rfl⟩
    · exact absurd htr (propLabelTriples_nil hfree.1)
    · obtain ⟨t, ht, rfl⟩ := defineClasses_static_shape subs hfree.2 tr htr
      exact ⟨t, List.mem_append.2 (Or.inr ht), rfl⟩
end

/-- C7: class label assignment is idempotent and first-writer-wins.
(1) Running class lowering a second time on its own output adds no label
statement: the label slice of the graph is unchanged (this part holds for
any input and any starting state).  (2) For a class defined by the input —
provided the input does not pass explicit `RDFS.label` pairs through the
open section, the starting graph has no label for it yet, and the class
term is not also used as a tag — the run ends with exactly one label for
it: the name-derived one.  (3) Nothing is ever removed, so an existing
label is never overwritten. -/
theorem C7_idempotent_labels (defs : ClassDefs) (st : St) (parent : Term)
    (pun : Bool) (name : String)
    (hfree : ClassDefs.labelKeyFree defs = true)
    (hmem : name ∈ ClassDefs.names defs)
    (hg0 : ∀ ℓ, (BRICK name, V.rdfsLabel, ℓ) ∉ st.G)
    (htag : BRICK name ∉ ClassDefs.tagTerms defs) :
    (∀ x ℓ, ((x, V.rdfsLabel, ℓ) ∈
        (defineClasses (defineClasses st defs parent pun) defs parent pun).G ↔
      (x, V.rdfsLabel, ℓ) ∈ (defineClasses st defs parent pun).G)) ∧
    (∀ ℓ, ((BRICK name, V.rdfsLabel, ℓ) ∈ (defineClasses st defs parent pun).G ↔
      ℓ = autoLabel (BRICK name))) ∧
    st.G ⊆ (defineClasses st defs parent pun).G := by
  refine ⟨?_, ?_, defineClasses_G_mono defs st parent pun⟩
  · exact defineClasses_label_stable defs _ parent pun
      (fun n hn => defineClasses_labeled defs st parent pun n hn)
      (fun tr htr => defineClasses_static defs st parent pun tr htr)
  · intro ℓ
    constructor
    · intro h
      rcases defineClasses_label_analysis defs st parent pun _ ℓ h with h | ⟨n, _, hx, hℓ⟩ | h
      · exact absurd h (hg0 ℓ)
      · rwa [BRICK_inj hx.symm] at hℓ
      · obtain ⟨t, ht, heq⟩ := defineClasses_static_shape defs hfree _ h
        rw [Prod.mk.injEq] at heq
        rw [← heq.1] at ht
        exact absurd ht htag
    · rintro rfl
      obtain ⟨ℓ0, hℓ0⟩ := defineClasses_labeled defs st parent pun name hmem
      have h0 := hℓ0
      rcases defineClasses_label_analysis defs st parent pun _ ℓ0 hℓ0 with h | ⟨n, _, hx, hℓ⟩ | h
      · exact absurd h (hg0 ℓ0)
      · rw [BRICK_inj hx.symm] at hℓ
        rwa [hℓ] at h0
      · obtain ⟨t, ht, heq⟩ := defineClasses_static_shape defs hfree _ h
        rw [Prod.mk.injEq] at heq
        rw [← heq.1] at ht
        exact absurd ht htag

/-- The input used to witness C7. -/
def c7defs : ClassDefs := .cons "Foo" (.mk [TAGNS "T1"] .nil [] [] []) .nil

/-- Witness for C7 at a concrete input. -/
theorem C7_idempotent_labels_witness :
    (ClassDefs.labelKeyFree c7defs = true ∧ "Foo" ∈ ClassDefs.names c7defs ∧
      (∀ ℓ, (BRICK "Foo", V.rdfsLabel, ℓ) ∉ St.init.G) ∧
      BRICK "Foo" ∉ ClassDefs.tagTerms c7defs) ∧
    ((∀ x ℓ, ((x, V.rdfsLabel, ℓ) ∈
        (defineClasses (defineClasses St.init c7defs V.brickEntity false)
          c7defs V.brickEntity false).G ↔
      (x, V.rdfsLabel, ℓ) ∈ (defineClasses St.init c7defs V.brickEntity false).G)) ∧
    (∀ ℓ, ((BRICK "Foo", V.rdfsLabel, ℓ) ∈
        (defineClasses St.init c7defs V.brickEntity false).G ↔
      ℓ = autoLabel (BRICK "Foo"))) ∧
    St.init.G ⊆ (defineClasses St.init c7defs V.brickEntity false).G) :=
  ⟨⟨by decide, by decide, fun ℓ => Finset.not_mem_empty _, by decide⟩,
    C7_idempotent_labels c7defs St.init V.brickEntity false "Foo"
      (by decide) (by decide) (fun ℓ => Finset.not_mem_empty _) (by decide)⟩

/-! ## The Deprecation Compiler: `handle_deprecations` (lines 785–816) -/

/-- The metadata record of one deprecated term. `version`,
`mitigation_message` and `replace_with` are accessed unconditionally by the
code. The `RDFS.subClassOf` / `SKOS.narrower` keys may be absent
(outer `none`), present with value `None` (inner `none`), or present with a
list of terms (the code wraps a single value into a list). -/
structure DeprecationMD where
  version : String
  mitigationMessage : String
  replaceWith : Term
  subClassOf : Option (Option (List Term)) := none
  narrower : Option (Option (List Term)) := none

/-- The body of the `for deprecated_term, md in deprecations.items():` loop
(lines 786–816). Note the label is added unconditionally (no `has_label`
guard). -/
def handleDeprecationItem (g : Graph) (t : Term) (md : DeprecationMD) : Graph :=
  let g : Graph := g.addAll [(t, V.A, V.owlClass),
    (t, V.owlDeprecated, .litBool true),
    (t, V.rdfsLabel, .litStr (replaceUnderscores t.localName))]
  -- handle subclasses or skos (lines 794–807): `if ... elif ...`
  let g : Graph := match md.subClassOf with
    | some (some l) => l.foldl (fun g x => g.add (t, V.rdfsSubClassOf, x)) g
    | some none => g
    | none =>
      match md.narrower with
      | some (some l) => l.foldl (fun g x => g.add (t, V.skosNarrower, x)) g
      | some none => g
      | none => g
  g.addAll [(t, V.brickDeprecatedInVersion, .litStr md.version),
    (t, V.brickDeprecationMitigationMessage, .litStr md.mitigationMessage),
    (t, V.brickIsReplacedBy, md.replaceWith)]

/-- `handle_deprecations()`. -/
def handleDeprecations (g : Graph) (deps : List (Term × DeprecationMD)) : Graph :=
  deps.foldl (fun g td => handleDeprecationItem g td.1 td.2) g

/-- C8 counterexample: the claim says a label is assigned only if the term
lacks one, with no second label statement added. But `handle_deprecations`
adds the name-derived label unconditionally: for a term that already carries
the label "Custom", the output carries two distinct label statements. -/
theorem C8_counterexample :
    ((BRICK "Old_Term", V.rdfsLabel, Term.litStr "Custom") ∈
      handleDeprecationItem
        {(BRICK "Old_Term", V.rdfsLabel, Term.litStr "Custom")}
        (BRICK "Old_Term")
        ⟨"1.2", "use Y instead", BRICK "Y", some (some [BRICK "X"]), none⟩) ∧
    ((BRICK "Old_Term", V.rdfsLabel, Term.litStr "Old Term") ∈
      handleDeprecationItem
        {(BRICK "Old_Term", V.rdfsLabel, Term.litStr "Custom")}
        (BRICK "Old_Term")
        ⟨"1.2", "use Y instead", BRICK "Y", some (some [BRICK "X"]), none⟩) ∧
    Term.litStr "Custom" ≠ Term.litStr "Old Term" :=
  ⟨by decide, by decide, by decide⟩

/-- C8 (amended): for every deprecated term the compiler emits the
deprecated-class assertion, the deprecated flag, the name-derived label
(asserted unconditionally — when a different label is already present this
adds a second label statement rather than leaving the existing one as the
only label), the version literal, the mitigation message and the
replaced-by edge; it copies forward the replacement subclass edges when the
`RDFS.subClassOf` key is present, and the narrower-concept edges only when
that key is absent and `SKOS.narrower` is present — never both. -/
theorem C8_deprecation_emission (g : Graph) (t : Term) (md : DeprecationMD) :
    ((t, V.A, V.owlClass) ∈ handleDeprecationItem g t md ∧
     (t, V.owlDeprecated, Term.litBool true) ∈ handleDeprecationItem g t md ∧
     (t, V.rdfsLabel, Term.litStr (replaceUnderscores t.localName)) ∈
       handleDeprecationItem g t md ∧
     (t, V.brickDeprecatedInVersion, Term.litStr md.version) ∈
       handleDeprecationItem g t md ∧
     (t, V.brickDeprecationMitigationMessage, Term.litStr md.mitigationMessage) ∈
       handleDeprecationItem g t md ∧
     (t, V.brickIsReplacedBy, md.replaceWith) ∈ handleDeprecationItem g t md) ∧
    (∀ l, md.subClassOf = some (some l) →
      (∀ x ∈ l, (t, V.rdfsSubClassOf, x) ∈ handleDeprecationItem g t md) ∧
      (∀ y, (t, V.skosNarrower, y) ∈ handleDeprecationItem g t md →
        (t, V.skosNarrower, y) ∈ g)) ∧
    (∀ l, md.subClassOf = none → md.narrower = some (some l) →
      (∀ x ∈ l, (t, V.skosNarrower, x) ∈ handleDeprecationItem g t md) ∧
      (∀ y, (t, V.rdfsSubClassOf, y) ∈ handleDeprecationItem g t md →
        (t, V.rdfsSubClassOf, y) ∈ g)) := by
  unfold handleDeprecationItem
  refine ⟨?_, ?_, ?_⟩
  · rcases md with ⟨v, m, r, sub, nar⟩
    dsimp only
    rcases sub with _ | _ | l
    · rcases nar with _ | _ | l
      · simp [mem_addAll]
      · simp [mem_addAll]
      · refine ⟨?_, ?_, ?_, ?_, ?_, ?_⟩ <;>
          rw [mem_addAll, mem_foldl_add (fun x => (t, V.skosNarrower, x)),
            mem_addAll] <;> simp
    · simp [mem_addAll]
    · refine ⟨?_, ?_, ?_, ?_, ?_, ?_⟩ <;>
        rw [mem_addAll, mem_foldl_add (fun x => (t, V.rdfsSubClassOf, x)),
          mem_addAll] <;> simp
  · rintro l hl
    rcases md with ⟨v, m, r, sub, nar⟩
    dsimp only at hl ⊢
    subst hl
    constructor
    · intro x hx
      rw [mem_addAll, mem_foldl_add (fun x => (t, V.rdfsSubClassOf, x))]
      exact Or.inl (Or.inr ⟨x, hx, rfl⟩)
    · intro y hy
      rw [mem_addAll, mem_foldl_add (fun x => (t, V.rdfsSubClassOf, x)),
        mem_addAll] at hy
      rcases hy with ((hy | hy) | ⟨x, _, hx⟩) | hy
      · exact hy
      · simp at hy
      · simp at hx
      · simp at hy
  · rintro l hsub hnar
    rcases md with ⟨v, m, r, sub, nar⟩
    dsimp only at hsub hnar ⊢
    subst hsub
    subst hnar
    constructor
    · intro x hx
      rw [mem_addAll, mem_foldl_add (fun x => (t, V.skosNarrower, x))]
      exact Or.inl (Or.inr ⟨x, hx, rfl⟩)
    · intro y hy
      rw [mem_addAll, mem_foldl_add (fun x => (t, V.skosNarrower, x)),
        mem_addAll] at hy
      rcases hy with ((hy | hy) | ⟨x, _, hx⟩) | hy
      · exact hy
      · simp at hy
      · simp at hx
      · simp at hy

/-- Witness for C8 at a concrete input. -/
theorem C8_deprecation_emission_witness :
    (∀ x ∈ [BRICK "X"], (BRICK "Old_Term", V.rdfsSubClassOf, x) ∈
      handleDeprecationItem ∅ (BRICK "Old_Term")
        ⟨"1.2", "use Y instead", BRICK "Y", some (some [BRICK "X"]), none⟩) ∧
    (∀ y, (BRICK "Old_Term", V.skosNarrower, y) ∈
      handleDeprecationItem ∅ (BRICK "Old_Term")
        ⟨"1.2", "use Y instead", BRICK "Y", some (some [BRICK "X"]), none⟩ →
      (BRICK "Old_Term", V.skosNarrower, y) ∈ (∅ : Graph)) :=
  (C8_deprecation_emission ∅ (BRICK "Old_Term")
    ⟨"1.2", "use Y instead", BRICK "Y", some (some [BRICK "X"]), none⟩).2.1
    [BRICK "X"] rfl

/-! ## The Entity Property Compiler: `define_entity_properties` (lines 361–402) -/

mutual
/-- One entity-property definition: the reserved keys `property_of`,
`SH.node`, `RDFS.label` (all may be absent — presence is checked by the
asserts), `subproperties`, plus the open pass-through pairs. -/
inductive EntPropDef where
  | mk (propertyOf : Option PropVal) (node : Option Term)
       (label : Option String) (subproperties : EntPropDefs)
       (props : List (Term × PropVal))

/-- The entries of an `entity_properties` dictionary (keys are terms). -/
inductive EntPropDefs where
  | nil
  | cons (p : Term) (d : EntPropDef) (rest : EntPropDefs)
end

mutual
/-- `define_entity_properties(definitions, superprop)` (lines 361–402).
A failed `assert` aborts the run; the error carries the message and the
state at the moment of failure. -/
def defineEntityProperties (st : St) (defs : EntPropDefs)
    (superprop : Option Term) : Except (String × St) St :=
  match defs with
  | .nil => .ok st
  | .cons p d rest =>
    match defineEntityProperty st p d superprop with
    | .error e => .error e
    | .ok st' => defineEntityProperties st' rest superprop

/-- The body of the `for entprop, defn in definitions.items():` loop.
The three asserts (lines 368–374) run before any statement for this
property is emitted. -/
def defineEntityProperty (st : St) (p : Term) (d : EntPropDef)
    (superprop : Option Term) : Except (String × St) St :=
  match d with
  | .mk propertyOf node lbl subs props =>
    if propertyOf.isNone then
      .error (p.str ++ " missing a 'property_of' annotation so Brick doesn't know where this property can be used", st)
    else if node.isNone then
      .error (p.str ++ " missing a SH.node annotation so Brick doesn't know what the values of this property can be", st)
    else if lbl.isNone then
      .error (p.str ++ " missing a RDFS.label annotation", st)
    else
      let st1 : St := { st with G := st.G.add (p, V.A, V.brickEntityProperty) }
      let st1 : St := match superprop with
        | some s => { st1 with G := st1.G.add (p, V.rdfsSubPropertyOf, s) }
        | none => st1
      -- recurse into subproperties with the current property as superprop
      match defineEntityProperties st1 subs (some p) with
      | .error e => .error e
      | .ok st2 =>
        let shNodeVal := node.getD (Term.uri "KeyError")
        let lblVal := lbl.getD ""
        let pshape := BSH ("has" ++ p.localName ++ "Shape")
        let st3 : St := { st2 with
          G := st2.G.addAll [(pshape, V.A, V.shPropertyShape),
            (pshape, V.shPath, p), (pshape, V.shNode, shNodeVal),
            (pshape, V.rdfsLabel, .litStr ("has " ++ lblVal ++ " property"))] }
        -- attach the shape to every shape listed under property_of
        let shapes : List Term := match propertyOf.getD (.one (Term.uri "KeyError")) with
          | .one s => [s]
          | .many ss => ss
        let st4 : St := { st3 with
          G := shapes.foldl (fun g s => g.add (s, V.shProperty, pshape)) st3.G }
        -- the remaining pairs; RDFS.label was read with `get`, not popped,
        -- so it is also emitted verbatim here
        let st5 : St := { st4 with G := st4.G.add (p, V.rdfsLabel, .litStr lblVal) }
        .ok { st5 with
          G := props.foldl (fun g pv =>
            match pv.2 with
            | .one t => g.add (p, pv.1, t)
            | .many ts => ts.foldl (fun g t => g.add (p, pv.1, t)) g) st5.G }
end

/-- C10: entity-property lowering fails fatally, with no statement emitted
for the property (the state is returned exactly as it was), not only when
`property_of` or `SH.node` is missing but also when the definition lacks an
`RDFS.label` annotation — the third required-metadata precondition. -/
theorem C10_entity_property_asserts (st : St) (rest : EntPropDefs)
    (sup : Option Term) (p : Term) (v : PropVal) (nd : Term)
    (lbl : Option String) (nd2 : Option Term) (subs : EntPropDefs)
    (props : List (Term × PropVal)) :
    (defineEntityProperties st
        (.cons p (.mk (some v) (some nd) none subs props) rest) sup =
      .error (p.str ++ " missing a RDFS.label annotation", st)) ∧
    (defineEntityProperties st
        (.cons p (.mk none nd2 lbl subs props) rest) sup =
      .error (p.str ++ " missing a 'property_of' annotation so Brick doesn't know where this property can be used", st)) ∧
    (defineEntityProperties st
        (.cons p (.mk (some v) none lbl subs props) rest) sup =
      .error (p.str ++ " missing a SH.node annotation so Brick doesn't know what the values of this property can be", st)) :=
  ⟨rfl, rfl, rfl⟩

/-! ## The Relationship Compiler: `define_relationships` (lines 584–648) -/

/-- The `"range"` key of a relationship definition: absent, a single class,
or a list of classes (`None` is treated like absent by the code's
`elif range_defn is not None`). -/
inductive RangeV where
  | absent
  | one (t : Term)
  | listOf (ts : List Term)

mutual
/-- One relationship definition: property types (`A` key), nested
subproperties, range, datatype, domain, and the open pass-through pairs. -/
inductive RelDef where
  | mk (types : List Term) (subproperties : RelDefs) (range : RangeV)
       (datatype : Option Term) (domain : Option PropVal)
       (props : List (Term × PropVal))

inductive RelDefs where
  | nil
  | cons (p : Term) (d : RelDef) (rest : RelDefs)
end

/-- `add_relationships(item, propdefs)` (lines 71–77): list values one
statement per element; nested dictionaries are skipped (excluded here by
the input type, whose reserved dictionary-valued keys are separate fields). -/
def addRelationships (g : Graph) (item : Term) (props : List (Term × PropVal)) :
    Graph :=
  props.foldl (fun g pv =>
    match pv.2 with
    | .one t => g.add (item, pv.1, t)
    | .many ts => ts.foldl (fun g t => g.add (item, pv.1, t)) g) g

mutual
/-- `define_relationships(definitions, superprop)` (lines 584–648). -/
def defineRelationships (st : St) (defs : RelDefs) (superprop : Option Term) : St :=
  match defs with
  | .nil => st
  | .cons p d rest =>
    defineRelationships (defineRelationship st p d superprop) rest superprop

/-- The body of the `for prop, propdefn in definitions.items():` loop. -/
def defineRelationship (st : St) (prop : Term) (d : RelDef)
    (superprop : Option Term) : St :=
  match d with
  | .mk types subs range dtype domain props =>
    let st1 : St := match superprop with
      | some s => { st with G := st.G.add (prop, V.rdfsSubPropertyOf, s) }
      | none => st
    let st1 : St := { st1 with
      G := st1.G.add (prop, V.rdfsSubPropertyOf, V.brickRelationship) }
    -- property types
    let st1 : St := { st1 with
      G := types.foldl (fun g pt => g.add (prop, V.A, pt)) st1.G }
    -- subproperties, with the current relationship as superproperty
    let st2 := defineRelationships st1 subs (some prop)
    -- one SHACL property shape per relationship
    let propshape := BSH (prop.localName ++ "Shape")
    let st3 : St := { st2 with
      G := st2.G.addAll [(propshape, V.A, V.shPropertyShape),
        (propshape, V.shPath, prop)] }
    -- range: a list becomes one ordered sh:or disjunction on the one shape
    let st4 : St := match range with
      | .absent => st3
      | .one c => { st3 with G := st3.G.add (propshape, V.shClass, c) }
      | .listOf cls =>
        let enumeration := Term.anon st3.next
        let g := st3.G.add (propshape, V.shOr, enumeration)
        let built := cls.foldl (fun (acc : Graph × Nat × List Term) c =>
          (acc.1.add (Term.anon acc.2.1, V.shClass, c), acc.2.1 + 1,
            acc.2.2 ++ [Term.anon acc.2.1])) (g, st3.next + 1, [])
        let fin := mkCollection built.1 built.2.1 enumeration built.2.2
        { st3 with G := fin.1, next := fin.2 }
    -- datatype, with the numeric sentinel special case
    let st5 : St := match dtype with
      | none => st4
      | some dt =>
        if dt = V.bshNumericValue then
          { st4 with G := st4.G.add (propshape, V.shOr, V.bshNumericValue) }
        else { st4 with G := st4.G.add (propshape, V.shDatatype, dt) }
    -- domain: attach the shape as a property of every listed class
    let st6 : St := match domain with
      | none => st5
      | some (.one dm) => { st5 with G := st5.G.add (dm, V.shProperty, propshape) }
      | some (.many dms) => { st5 with
        G := dms.foldl (fun g dm => g.add (dm, V.shProperty, propshape)) st5.G }
    { st6 with G := addRelationships st6.G prop props }
end

/-! ## Claim C9: disjunctive range -/

/-- `BSH[f"(prop)Shape"]`: the property shape of a relationship. -/
def relShape (P : Term) : Term := BSH (P.localName ++ "Shape")

/-- Lowering one relationship whose range is the list `[A, B]` (and which
declares nothing else), from an arbitrary state. -/
def c9listRun (st : St) (P A B : Term) : St :=
  defineRelationships st (.cons P (.mk [] .nil (.listOf [A, B]) none none []) .nil) none

/-- Lowering one relationship whose range is the single class `C`. -/
def c9oneRun (st : St) (P C : Term) : St :=
  defineRelationships st (.cons P (.mk [] .nil (.one C) none none []) .nil) none

/-- The statements emitted by `c9listRun`: one property shape with an
`sh:or` over an RDF list of two class-constraint fragments. -/
def c9added (st : St) (P A B : Term) : List Triple :=
  [(P, V.rdfsSubPropertyOf, V.brickRelationship),
   (relShape P, V.A, V.shPropertyShape),
   (relShape P, V.shPath, P),
   (relShape P, V.shOr, Term.anon st.next),
   (Term.anon (st.next + 1), V.shClass, A),
   (Term.anon (st.next + 2), V.shClass, B),
   (Term.anon st.next, V.rdfFirst, Term.anon (st.next + 1)),
   (Term.anon st.next, V.rdfRest, Term.anon (st.next + 3)),
   (Term.anon (st.next + 3), V.rdfFirst, Term.anon (st.next + 2)),
   (Term.anon (st.next + 3), V.rdfRest, V.rdfNil)]

/-- C9: a relationship with range `[A, B]` yields exactly one property
shape, whose range constraint is a single ordered `sh:or` disjunction over
per-class constraint fragments ("class is A OR class is B") — not two
independent class-constrained shapes and no direct `sh:class` on the shape
— while a single (non-list) range yields a single direct `sh:class`
constraint and no disjunction. -/
theorem C9_disjunctive_range (st : St) (P A B C : Term) :
    -- everything the list-range lowering adds
    (∀ x, x ∈ (c9listRun st P A B).G ↔ x ∈ st.G ∨ x ∈ c9added st P A B) ∧
    -- exactly one property shape for this relationship
    (∀ s, ((s, V.A, V.shPropertyShape) ∈ (c9listRun st P A B).G ∧
        (s, V.shPath, P) ∈ (c9listRun st P A B).G) ↔
      (s = relShape P ∨ ((s, V.A, V.shPropertyShape) ∈ st.G ∧
        (s, V.shPath, P) ∈ st.G))) ∧
    -- no direct class constraint is put on the shape in the list case
    (∀ c, (relShape P, V.shClass, c) ∈ (c9listRun st P A B).G →
      (relShape P, V.shClass, c) ∈ st.G) ∧
    -- a non-list range yields a single direct class constraint
    ((relShape P, V.shClass, C) ∈ (c9oneRun st P C).G ∧
     (∀ o, (relShape P, V.shOr, o) ∈ (c9oneRun st P C).G →
       (relShape P, V.shOr, o) ∈ st.G)) := by
  have heq : (c9listRun st P A B).G =
      ((((((st.G.add (P, V.rdfsSubPropertyOf, V.brickRelationship)).addAll
        [(relShape P, V.A, V.shPropertyShape),
         (relShape P, V.shPath, P)]).add
        (relShape P, V.shOr, Term.anon st.next)).add
        (Term.anon (st.next + 1), V.shClass, A)).add
        (Term.anon (st.next + 1 + 1), V.shClass, B)).addAll
        [(Term.anon st.next, V.rdfFirst, Term.anon (st.next + 1)),
         (Term.anon st.next, V.rdfRest, Term.anon (st.next + 1 + 1 + 1))]).addAll
        [(Term.anon (st.next + 1 + 1 + 1), V.rdfFirst, Term.anon (st.next + 1 + 1)),
         (Term.anon (st.next + 1 + 1 + 1), V.rdfRest, V.rdfNil)] := rfl
  have hmem : ∀ x, x ∈ (c9listRun st P A B).G ↔ x ∈ st.G ∨ x ∈ c9added st P A B := by
    intro x
    rw [heq]
    simp only [mem_addAll, mem_add, c9added, List.mem_cons, List.not_mem_nil,
      or_false]
    have h2 : st.next + 1 + 1 = st.next + 2 := by omega
    have h3 : st.next + 1 + 1 + 1 = st.next + 3 := by omega
    rw [h2, h3]
    tauto
  have heq1 : (c9oneRun st P C).G =
      ((st.G.add (P, V.rdfsSubPropertyOf, V.brickRelationship)).addAll
        [(relShape P, V.A, V.shPropertyShape),
         (relShape P, V.shPath, P)]).add (relShape P, V.shClass, C) := rfl
  refine ⟨hmem, ?_, ?_, ?_, ?_⟩
  · intro s
    constructor
    · rintro ⟨h1, h2⟩
      rw [hmem] at h1 h2
      rcases h1 with h1 | h1
      · rcases h2 with h2 | h2
        · exact Or.inr ⟨h1, h2⟩
        · simp only [c9added, List.mem_cons, List.not_mem_nil, or_false,
            Prod.mk.injEq] at h2
          rcases h2 with h2 | h2 | h2 | h2 | h2 | h2 | h2 | h2 | h2 | h2 <;>
            first
              | (exact Or.inl h2.1)
              | (exfalso; revert h2; simp)
      · simp only [c9added, List.mem_cons, List.not_mem_nil, or_false,
          Prod.mk.injEq] at h1
        rcases h1 with h1 | h1 | h1 | h1 | h1 | h1 | h1 | h1 | h1 | h1 <;>
          first
            | (exact Or.inl h1.1)
            | (exfalso; revert h1; simp)
    · rintro (rfl | ⟨h1, h2⟩)
      · constructor
        · exact (hmem _).2 (Or.inr (by simp [c9added]))
        · exact (hmem _).2 (Or.inr (by simp [c9added]))
      · exact ⟨(hmem _).2 (Or.inl h1), (hmem _).2 (Or.inl h2)⟩
  · intro c hc
    rw [hmem] at hc
    rcases hc with hc | hc
    · exact hc
    · exfalso
      revert hc
      simp [c9added, relShape]
  · rw [heq1, mem_add]
    exact Or.inl rfl
  · intro o ho
    rw [heq1, mem_add, mem_addAll] at ho
    rcases ho with ho | ho
    · exfalso; revert ho; simp
    · rcases ho with ho | ho
      · rcases mem_add.1 ho with ho | ho
        · exfalso; revert ho; simp
        · exact ho
      · exfalso; revert ho; simp

/-! ## The Value-Shape Compiler: `define_shape_property_property`
(lines 405–473) -/

/-- One sub-property requirement (`prop_defn`): the reserved keys
`optional`, `datatype`, `values`, plus the open pass-through pairs.
(The `import_from` key, which reads and parses an external file, is file
I/O outside the modelled store interface and is not part of this input
type; none of the claims involve it.) -/
structure PropReq where
  optional : Option Bool := none
  datatype : Option Term := none
  values : Option (List String) := none
  other : List (Term × PropVal) := []

/-- `len(prop_defn.keys())` for the modelled keys. -/
def PropReq.keyCount (r : PropReq) : Nat :=
  (if r.optional.isSome then 1 else 0) + (if r.datatype.isSome then 1 else 0) +
    (if r.values.isSome then 1 else 0) + r.other.length

mutual
/-- The `definitions` argument of `define_shape_property_property`: an
optional `"or"` key holding a list of alternative sub-shape definitions,
plus the property-name → requirement entries. -/
inductive SubShapeDefn where
  | mk (orDefs : Option SubShapeDefns) (props : List (Term × PropReq))

inductive SubShapeDefns where
  | nil
  | cons (d : SubShapeDefn) (rest : SubShapeDefns)
end

/-- The reuse query of lines 429–436, exactly as written in the source:

    SELECT ?x ( ?p sh:property ?p .
                ?p sh:path <prop_name> .
                FILTER NOT EXISTS ( ?p sh:minCount ?mc )
                FILTER NOT EXISTS ( ?p sh:maxCount ?mc ) )

The triple pattern `?p sh:property ?p` binds subject and object to the
same variable, so it matches only a node carrying an `sh:property`
self-loop; and the selected variable `?x` never occurs in the body, so
every result row holds the unbound value `None`. One row is produced per
matching binding of `?p`. -/
def brokenReuseRows (g : Graph) (propName : Term) : List (Option Term) :=
  List.replicate
    (g.filter (fun tr => tr.2.1 = V.shProperty ∧ tr.2.2 = tr.1 ∧
      (tr.1, V.shPath, propName) ∈ g ∧
      (¬ ∃ mc ∈ g, mc.1 = tr.1 ∧ mc.2.1 = V.shMinCount) ∧
      (¬ ∃ mc ∈ g, mc.1 = tr.1 ∧ mc.2.1 = V.shMaxCount))).card
    (none : Option Term)

/-- Lines 441–473: construct a fresh property shape `ps = BNode()` for one
sub-property requirement and attach its constraints. -/
def propShapeCreate (st : St) (shapeName propName : Term) (r : PropReq) : St :=
  let ps := Term.anon st.next
  let st1 : St := { st with
    G := st.G.addAll [(shapeName, V.shProperty, ps),
      (ps, V.A, V.shPropertyShape), (ps, V.shPath, propName)],
    next := st.next + 1 }
  -- optional: absent, or popped False, adds sh:minCount 1
  let st2 : St := match r.optional with
    | some b => if b then st1
        else { st1 with G := st1.G.add (ps, V.shMinCount, Term.litNat 1) }
    | none => { st1 with G := st1.G.add (ps, V.shMinCount, Term.litNat 1) }
  -- datatype (with the numeric sentinel), elif values, else ObjectProperty
  let st3 : St := match r.datatype with
    | some dt =>
      let s := { st2 with G := st2.G.add (propName, V.A, V.owlDatatypeProperty) }
      if dt = V.bshNumericValue then
        { s with G := s.G.add (ps, V.shOr, V.bshNumericValue) }
      else { s with G := s.G.add (ps, V.shDatatype, dt) }
    | none =>
      match r.values with
      | some vs =>
        let enumeration := Term.anon st2.next
        let s : St := { st2 with
          G := st2.G.addAll [(ps, V.shIn, enumeration),
            (ps, V.shMinCount, Term.litNat 1)],
          next := st2.next + 1 }
        let fin := mkCollection s.G s.next enumeration (vs.map Term.litStr)
        { s with
          G := (fin.1).add (propName, V.A, V.owlObjectProperty),
          next := fin.2 }
      | none => { st2 with G := st2.G.add (propName, V.A, V.owlObjectProperty) }
  { st3 with G := addRelationships st3.G ps r.other }

/-- The `for prop_name, prop_defn in definitions.items():` loop
(lines 422–473), including the shape-reuse check of lines 427–439. -/
def propsLoop (st : St) (shapeName : Term) :
    List (Term × PropReq) → Except (String × St) St
  | [] => .ok st
  | (pn, r) :: rest =>
    if r.optional = some true ∧ r.keyCount = 1 then
      let rows := brokenReuseRows st.G pn
      if rows.length > 0 then
        match rows.head? with
        | some (some t) =>
          -- reuse the found shape and continue to the next property
          propsLoop { st with G := st.G.add (shapeName, V.shProperty, t) }
            shapeName rest
        | some none =>
          -- `prop_exists[0][0]` is the never-bound `?x`, i.e. `None`;
          -- rdflib's `Graph.add` rejects a `None` term with an assertion
          .error ("Graph.add: object is not an rdflib term (None)", st)
        | none => propsLoop (propShapeCreate st shapeName pn r) shapeName rest
      else propsLoop (propShapeCreate st shapeName pn r) shapeName rest
    else propsLoop (propShapeCreate st shapeName pn r) shapeName rest

mutual
/-- `define_shape_property_property(shape_name, definitions)`
(lines 405–473). -/
def defineShapePropertyProperty (st : St) (shapeName : Term)
    (d : SubShapeDefn) : Except (String × St) St :=
  match d with
  | .mk orDefs props =>
    match orDefs with
    | none => propsLoop st shapeName props
    | some ods =>
      match processOrList st ods with
      | .error e => .error e
      | .ok (st1, orList) =>
        let orListName := Term.anon st1.next
        let st2 : St := { st1 with
          G := st1.G.add (shapeName, V.shOr, orListName),
          next := st1.next + 1 }
        let fin := mkCollection st2.G st2.next orListName orList
        propsLoop { st2 with G := fin.1, next := fin.2 } shapeName props

/-- The `for or_node_defn in definitions.pop("or"):` loop (lines 414–418):
a fresh node per alternative, recursively lowered. -/
def processOrList (st : St) (ods : SubShapeDefns) :
    Except (String × St) (St × List Term) :=
  match ods with
  | .nil => .ok (st, [])
  | .cons d rest =>
    let orNodeShape := Term.anon st.next
    let st1 : St := { st with next := st.next + 1 }
    match defineShapePropertyProperty st1 orNodeShape d with
    | .error e => .error e
    | .ok st2 =>
      match processOrList st2 rest with
      | .error e => .error e
      | .ok (st3, l) => .ok (st3, orNodeShape :: l)
end

/-! ## Claim C1: shape reuse for optional unconstrained sub-properties -/

/-- The optional-with-no-other-constraints requirement used to exercise the
shape-reuse lookup. -/
def c1req : PropReq := { optional := some true }

/-- One sub-property requirement on path `brick:lastKnownValue` with no
constraint beyond `optional`. -/
def c1defn : SubShapeDefn := .mk none [(BRICK "lastKnownValue", c1req)]

/-- The state after lowering the requirement under a first shape. -/
def c1st1 : St :=
  (defineShapePropertyProperty St.init (BSH "Shape1") c1defn).toOption.getD St.init

/-- The state after lowering the same requirement under a second shape. -/
def c1st2 : St :=
  (defineShapePropertyProperty c1st1 (BSH "Shape2") c1defn).toOption.getD St.init

/-- C1, evaluated at the failing input: two distinct optional,
otherwise-unconstrained sub-property requirements on the same path do NOT
resolve to one shared property-shape identity. Both calls succeed; after
the first call the store does contain a property shape (`_:anon0`) with
that path and no occurrence-count restriction — exactly what the spec's
reuse lookup is meant to find — yet the second call attaches a fresh node
(`_:anon1`) to its shape and never attaches the existing one, because the
reuse query's pattern `?p sh:property ?p` demands an `sh:property`
self-loop (and its `SELECT ?x` projects a variable that is never bound),
so it can never return an existing shape. -/
theorem C1_code_bug_no_shape_reuse :
    -- both lowering calls succeed
    (defineShapePropertyProperty St.init (BSH "Shape1") c1defn).isOk = true ∧
    (defineShapePropertyProperty c1st1 (BSH "Shape2") c1defn).isOk = true ∧
    -- after the first call the reuse precondition holds in the store:
    -- an existing property shape with the same path and no min/max count
    (BSH "Shape1", V.shProperty, Term.anon 0) ∈ c1st1.G ∧
    (Term.anon 0, V.shPath, BRICK "lastKnownValue") ∈ c1st1.G ∧
    c1st1.G.filter (fun tr => tr.1 = Term.anon 0 ∧
      (tr.2.1 = V.shMinCount ∨ tr.2.1 = V.shMaxCount)) = ∅ ∧
    -- yet the second call creates a second, distinct property shape
    (BSH "Shape2", V.shProperty, Term.anon 1) ∈ c1st2.G ∧
    (Term.anon 1, V.shPath, BRICK "lastKnownValue") ∈ c1st2.G ∧
    (BSH "Shape2", V.shProperty, Term.anon 0) ∉ c1st2.G ∧
    Term.anon 0 ≠ Term.anon 1 ∧
    -- the two shapes' attached property-shape identities are disjoint
    c1st2.G.filter (fun tr => tr.1 = BSH "Shape2" ∧ tr.2.1 = V.shProperty)
      = {(BSH "Shape2", V.shProperty, Term.anon 1)} :=
  ⟨by decide, by decide, by decide, by decide, by decide, by decide, by decide,
   by decide, by decide, by decide⟩

/-! ## Reachability over a triple store

SPARQL property paths (`skos:broader+`, `rdfs:subClassOf*`) denote
transitive reachability along one predicate's edges. The computable
saturation below is proved equivalent to `Relation.ReflTransGen` /
`Relation.TransGen` of the edge relation. -/

/-- The (subject, object) edges of one predicate. -/
def edgeSet (g : Graph) (pred : Term) : Finset (Term × Term) :=
  (g.filter (fun tr => tr.2.1 = pred)).image (fun tr => (tr.1, tr.2.2))

/-- One saturation step of backward reachability: add every node with an
edge into the current set. -/
def reachStep (E : Finset (Term × Term)) (S : Finset Term) : Finset Term :=
  S ∪ (E.filter (fun e => e.2 ∈ S)).image Prod.fst

/-- Iterated saturation. -/
def reachIter (E : Finset (Term × Term)) : Nat → Finset Term → Finset Term
  | 0, S => S
  | n + 1, S => reachIter E n (reachStep E S)

/-- All nodes with a (possibly empty) edge path into `t`; `E.card + 1`
rounds saturate, which suffices (proved below). -/
def reachSet (E : Finset (Term × Term)) (t : Term) : Finset Term :=
  reachIter E (E.card + 1) {t}

/-- All nodes with an edge path of length at least one into `t`; for
`E = edgeSet g skos:broader` and `t` a quantity, these are the
strictly-narrower concepts `?x skos:broader+ t`. -/
def strictReach (E : Finset (Term × Term)) (t : Term) : Finset Term :=
  (E.filter (fun e => e.2 ∈ reachSet E t)).image Prod.fst

theorem subset_reachStep (E : Finset (Term × Term)) (S : Finset Term) :
    S ⊆ reachStep E S :=
  Finset.subset_union_left

theorem reachStep_mono {E : Finset (Term × Term)} {S T : Finset Term}
    (h : S ⊆ T) : reachStep E S ⊆ reachStep E T := by
  unfold reachStep
  intro x hx
  rcases Finset.mem_union.1 hx with hx | hx
  · exact Finset.mem_union.2 (Or.inl (h hx))
  · refine Finset.mem_union.2 (Or.inr ?_)
    obtain ⟨e, he, rfl⟩ := Finset.mem_image.1 hx
    obtain ⟨he1, he2⟩ := Finset.mem_filter.1 he
    exact Finset.mem_image.2 ⟨e, Finset.mem_filter.2 ⟨he1, h (by simpa using he2)⟩, rfl⟩

theorem subset_reachIter (E : Finset (Term × Term)) :
    ∀ (n : Nat) (S : Finset Term), S ⊆ reachIter E n S
  | 0, S => fun _ h => h
  | n + 1, S =>
    subset_trans (subset_reachStep E S) (subset_reachIter E n (reachStep E S))

theorem reachIter_succ_out (E : Finset (Term × Term)) :
    ∀ (n : Nat) (S : Finset Term),
    reachIter E (n + 1) S = reachStep E (reachIter E n S)
  | 0, S => rfl
  | n + 1, S => by
    show reachIter E (n + 1) (reachStep E S) = _
    rw [reachIter_succ_out E n (reachStep E S)]
    rfl

theorem reachIter_stable (E : Finset (Term × Term)) {S : Finset Term}
    (h : reachStep E S = S) : ∀ n, reachIter E n S = S
  | 0 => rfl
  | n + 1 => by
    show reachIter E n (reachStep E S) = S
    rw [h]
    exact reachIter_stable E h n

/-- Every saturation set from `(t)` stays inside the sources of `E`
together with `t`. -/
theorem reachIter_subset_vertices (E : Finset (Term × Term)) (t : Term) :
    ∀ (n : Nat) (S : Finset Term), S ⊆ insert t (E.image Prod.fst) →
    reachIter E n S ⊆ insert t (E.image Prod.fst)
  | 0, S, hS => hS
  | n + 1, S, hS => by
    refine reachIter_subset_vertices E t n (reachStep E S) ?_
    intro x hx
    rcases Finset.mem_union.1 hx with hx | hx
    · exact hS hx
    · obtain ⟨e, he, rfl⟩ := Finset.mem_image.1 hx
      exact Finset.mem_insert.2 (Or.inr
        (Finset.mem_image.2 ⟨e, (Finset.mem_filter.1 he).1, rfl⟩))

/-- If no round in `0..k-1` stabilizes, the set grows by at least one node
per round. -/
theorem reachIter_card_grows (E : Finset (Term × Term)) (S : Finset Term) :
    ∀ (k : Nat), (∀ m < k, reachStep E (reachIter E m S) ≠ reachIter E m S) →
    S.card + k ≤ (reachIter E k S).card
  | 0, _ => by simp [reachIter]
  | k + 1, h => by
    have hk := reachIter_card_grows E S k (fun m hm => h m (Nat.lt_succ_of_lt hm))
    have hne := h k (Nat.lt_succ_self k)
    have hss : reachIter E k S ⊂ reachStep E (reachIter E k S) :=
      Finset.ssubset_iff_subset_ne.2 ⟨subset_reachStep E _, fun he => hne he.symm⟩
    have := Finset.card_lt_card hss
    rw [reachIter_succ_out]
    omega

/-- Saturation reaches a fixed point within `E.card + 1` rounds. -/
theorem reachSet_fixed (E : Finset (Term × Term)) (t : Term) :
    reachStep E (reachSet E t) = reachSet E t := by
  by_cases hstab : ∃ m ≤ E.card, reachStep E (reachIter E m {t}) = reachIter E m {t}
  · obtain ⟨m, hm, hfix⟩ := hstab
    obtain ⟨d, hd⟩ : ∃ d, E.card + 1 = m + d := ⟨E.card + 1 - m, by omega⟩
    unfold reachSet
    rw [hd]
    have hsplit : ∀ (a b : Nat) (S : Finset Term),
        reachIter E (a + b) S = reachIter E b (reachIter E a S) := by
      intro a
      induction a with
      | zero => intro b S; simp [reachIter]
      | succ a ih =>
        intro b S
        have h1 : a + 1 + b = (a + b) + 1 := by omega
        rw [h1]
        show reachIter E (a + b) (reachStep E S) = _
        rw [ih]
        rfl
    rw [hsplit, reachIter_stable E hfix d, hfix]
  · push_neg at hstab
    exfalso
    have hgrow := reachIter_card_grows E {t} (E.card + 1)
      (fun m hm => hstab m (by omega))
    have hsub := reachIter_subset_vertices E t (E.card + 1) {t}
      (by intro x hx; simp at hx; simp [hx])
    have hcard := Finset.card_le_card hsub
    have hv : (insert t (E.image Prod.fst)).card ≤ E.card + 1 := by
      calc (insert t (E.image Prod.fst)).card
          ≤ (E.image Prod.fst).card + 1 := Finset.card_insert_le _ _
        _ ≤ E.card + 1 := by
            have := Finset.card_image_le (s := E) (f := Prod.fst)
            omega
    simp only [Finset.card_singleton] at hgrow
    omega

theorem mem_reachSet_self (E : Finset (Term × Term)) (t : Term) :
    t ∈ reachSet E t :=
  subset_reachIter E (E.card + 1) {t} (Finset.mem_singleton_self t)

/-- Soundness: saturation only reaches genuinely reachable nodes. -/
theorem reachIter_sound (E : Finset (Term × Term)) (t : Term) :
    ∀ (n : Nat) (S : Finset Term),
    (∀ s ∈ S, Relation.ReflTransGen (fun a b => (a, b) ∈ E) s t) →
    ∀ x ∈ reachIter E n S, Relation.ReflTransGen (fun a b => (a, b) ∈ E) x t
  | 0, S, hS => hS
  | n + 1, S, hS => by
    refine reachIter_sound E t n (reachStep E S) ?_
    intro s hs
    rcases Finset.mem_union.1 hs with hs | hs
    · exact hS s hs
    · obtain ⟨e, he, rfl⟩ := Finset.mem_image.1 hs
      obtain ⟨he1, he2⟩ := Finset.mem_filter.1 he
      exact Relation.ReflTransGen.head (by simpa using he1) (hS e.2 (by simpa using he2))

/-- Membership in the saturation set is exactly reflexive-transitive
reachability. -/
theorem mem_reachSet (E : Finset (Term × Term)) (t x : Term) :
    x ∈ reachSet E t ↔ Relation.ReflTransGen (fun a b => (a, b) ∈ E) x t := by
  constructor
  · intro hx
    refine reachIter_sound E t (E.card + 1) {t} ?_ x hx
    intro s hs
    rw [Finset.mem_singleton] at hs
    subst hs
    exact Relation.ReflTransGen.refl
  · intro hx
    induction hx using Relation.ReflTransGen.head_induction_on with
    | refl => exact mem_reachSet_self E t
    | head hab _ ih =>
      rw [← reachSet_fixed E t]
      refine Finset.mem_union.2 (Or.inr ?_)
      exact Finset.mem_image.2 ⟨_, Finset.mem_filter.2 ⟨hab, by simpa using ih⟩, rfl⟩

/-- Membership in `strictReach` is exactly transitive (≥ 1 step)
reachability. -/
theorem mem_strictReach (E : Finset (Term × Term)) (t x : Term) :
    x ∈ strictReach E t ↔ Relation.TransGen (fun a b => (a, b) ∈ E) x t := by
  unfold strictReach
  rw [Relation.TransGen.head'_iff]
  constructor
  · intro hx
    obtain ⟨e, he, rfl⟩ := Finset.mem_image.1 hx
    obtain ⟨he1, he2⟩ := Finset.mem_filter.1 he
    exact ⟨e.2, he1, (mem_reachSet E t e.2).1 (by simpa using he2)⟩
  · rintro ⟨y, hxy, hyt⟩
    exact Finset.mem_image.2 ⟨(x, y),
      Finset.mem_filter.2 ⟨hxy, by simpa using (mem_reachSet E t y).2 hyt⟩, rfl⟩

/-- Transitivity of strict reachability. -/
theorem strictReach_trans {E : Finset (Term × Term)} {a b c : Term}
    (h1 : a ∈ strictReach E b) (h2 : b ∈ strictReach E c) :
    a ∈ strictReach E c :=
  (mem_strictReach E c a).2
    (Relation.TransGen.trans ((mem_strictReach E b a).1 h1)
      ((mem_strictReach E c b).1 h2))

/-! ## Claim C2: the SKOS inverse-edge closure step (lines 923–942) -/

/-- `?x rdf:type/rdfs:subClassOf* brick:Entity`: `x` has a type whose
subclass chain reaches the core entity root. -/
def typedUnderEntity (g : Graph) (x : Term) : Bool :=
  decide (∃ tr ∈ g, tr.1 = x ∧ tr.2.1 = V.A ∧
    tr.2.2 ∈ reachSet (edgeSet g V.rdfsSubClassOf) V.brickEntity)

/-- The result graph of the first closure query (lines 925–932):
`CONSTRUCT ( ?narrower skos:broader ?broader ) WHERE (
?broader skos:narrower ?narrower . ?narrower rdf:type/rdfs:subClassOf*
brick:Entity )`. -/
def inferredBroaderEdges (g : Graph) : Graph :=
  (g.filter (fun tr => tr.2.1 = V.skosNarrower ∧ typedUnderEntity g tr.2.2)).image
    (fun tr => (tr.2.2, V.skosBroader, tr.1))

/-- The result graph of the second closure query (lines 935–942):
`CONSTRUCT ( ?broader skos:narrower ?narrower ) WHERE (
?narrower skos:broader ?broader . ?broader rdf:type/rdfs:subClassOf*
brick:Entity )`. -/
def inferredNarrowerEdges (g : Graph) : Graph :=
  (g.filter (fun tr => tr.2.1 = V.skosBroader ∧ typedUnderEntity g tr.2.2)).image
    (fun tr => (tr.2.2, V.skosNarrower, tr.1))

/-- The module-level closure step as written in the source: both
`G.query(CONSTRUCT ...)` calls evaluate their query and return a result
graph, but the result is never added back to `G` (the return value of
`Graph.query` is discarded), so the store is returned unchanged. -/
def skosClosureStep (g : Graph) : Graph :=
  let _r1 := inferredBroaderEdges g
  let _r2 := inferredNarrowerEdges g
  g

/-- A taxonomy fragment with one `skos:broader` edge whose broader endpoint
is typed under `brick:Entity`, and no inverse `skos:narrower` edge. -/
def c2g : Graph :=
  {(BRICK "Dewpoint", V.skosBroader, BRICK "Temperature"),
   (BRICK "Temperature", V.A, V.brickQuantity),
   (V.brickQuantity, V.rdfsSubClassOf, V.brickEntity)}

/-- C2, evaluated at the failing input: the closure step leaves the graph
unchanged. The statement `(Dewpoint skos:broader Temperature)` is present
with `Temperature` typed under `brick:Entity`, and the CONSTRUCT query does
compute the missing inverse `(Temperature skos:narrower Dewpoint)`, but the
module-level code discards the query's result graph instead of adding it
to `G`, so the inverse edge is still absent afterwards. -/
theorem C2_code_bug_closure_discarded :
    skosClosureStep c2g = c2g ∧
    (BRICK "Dewpoint", V.skosBroader, BRICK "Temperature") ∈ c2g ∧
    typedUnderEntity c2g (BRICK "Temperature") = true ∧
    (BRICK "Temperature", V.skosNarrower, BRICK "Dewpoint") ∈
      inferredNarrowerEdges c2g ∧
    (BRICK "Temperature", V.skosNarrower, BRICK "Dewpoint") ∉
      skosClosureStep c2g :=
  ⟨rfl, by decide, by decide, by decide, by decide⟩

/-! ## Claim C3: unit propagation along the quantity taxonomy
(lines 80–94 and 945–965) -/

theorem mem_edgeSet {g : Graph} {p a b : Term} :
    (a, b) ∈ edgeSet g p ↔ (a, p, b) ∈ g := by
  unfold edgeSet
  rw [Finset.mem_image]
  constructor
  · rintro ⟨tr, htr, heq⟩
    obtain ⟨h1, h2⟩ := Finset.mem_filter.1 htr
    rcases tr with ⟨s, p', o⟩
    simp only [Prod.mk.injEq] at heq h2
    obtain ⟨rfl, rfl⟩ := heq
    subst h2
    exact h1
  · intro h
    exact ⟨(a, p, b), Finset.mem_filter.2 ⟨h, rfl⟩, rfl⟩

/-- Pass 1 (lines 957–960): for each `(quantity, qudt_quant)` pair of the
`res` query, copy the applicable units that the external `get_units`
lookup returns for the QUDT reference. `get_units` lives in
`bricksrc/quantities.py` (not under `src/`), so it is an uninterpreted
function parameter here. -/
def unitPass1 (g : Graph) (R : List (Term × Term))
    (getUnits : Term → List Term) : Graph :=
  R.foldl (fun g r => (getUnits r.2).foldl
    (fun g u => g.add (r.1, V.qudtApplicableUnit, u)) g) g

/-- The statements pass 2 adds for one quantity: `get_units_brick`
(lines 80–94) selects `?unit` for every `?subquant skos:broader+ q`
carrying `?subquant qudt:applicableUnit ?unit` (the OPTIONAL symbol and
label components do not affect the unit set), and the loop at lines
961–965 adds `(q, qudt:applicableUnit, ?unit)` for every row. -/
def unitsQuery (g : Graph) (q : Term) : Finset Triple :=
  (g.filter (fun tr => tr.2.1 = V.qudtApplicableUnit ∧
    tr.1 ∈ strictReach (edgeSet g V.skosBroader) q)).image
    (fun tr => (q, V.qudtApplicableUnit, tr.2.2))

/-- Pass 2 (lines 961–965). -/
def unitPass2 (g : Graph) (R : List (Term × Term)) : Graph :=
  R.foldl (fun g r => g ∪ unitsQuery g r.1) g

/-- Both unit-propagation passes in order. -/
def unitPasses (g : Graph) (R : List (Term × Term))
    (getUnits : Term → List Term) : Graph :=
  unitPass2 (unitPass1 g R getUnits) R

/-- A quantity taxonomy with a strictly-narrower concept carrying a
directly declared applicable unit, but no `hasQUDTReference` statement
anywhere. -/
def c3g : Graph :=
  {(BRICK "Power", V.A, V.brickQuantity),
   (BRICK "Active_Power", V.skosBroader, BRICK "Power"),
   (BRICK "Active_Power", V.qudtApplicableUnit,
     Term.uri "http://qudt.org/vocab/unit/W")}

/-- C3 counterexample: `brick:Power` is a quantity in the compiled
taxonomy and the unit W is directly declared applicable to its
strictly-narrower concept `brick:Active_Power`, but because no quantity
carries a `brick:hasQUDTReference` statement, the `res` selection is empty
(witnessed by the absence of any such statement), both passes do nothing,
and `brick:Power` does not carry W afterwards — refuting the claim for
"every quantity concept". -/
theorem C3_counterexample :
    (∀ tr ∈ c3g, tr.2.1 ≠ V.brickHasQUDTReference) ∧
    (BRICK "Power", V.A, V.brickQuantity) ∈ c3g ∧
    BRICK "Active_Power" ∈ strictReach (edgeSet c3g V.skosBroader) (BRICK "Power") ∧
    (BRICK "Active_Power", V.qudtApplicableUnit,
      Term.uri "http://qudt.org/vocab/unit/W") ∈ c3g ∧
    unitPasses c3g [] (fun _ => []) = c3g ∧
    (BRICK "Power", V.qudtApplicableUnit, Term.uri "http://qudt.org/vocab/unit/W")
      ∉ unitPasses c3g [] (fun _ => []) :=
  ⟨by decide, by decide, by decide, by decide, rfl, by decide⟩

/-- During pass 2 the graph differs from the post-pass-1 graph only by
`qudt:applicableUnit` statements. -/
def OnlyAU (g1 g : Graph) : Prop :=
  g1 ⊆ g ∧ ∀ tr ∈ g, tr ∈ g1 ∨ tr.2.1 = V.qudtApplicableUnit

theorem edgeSet_eq_of_onlyAU {g1 g : Graph} (h : OnlyAU g1 g) :
    edgeSet g V.skosBroader = edgeSet g1 V.skosBroader := by
  apply Finset.ext
  rintro ⟨a, b⟩
  rw [mem_edgeSet, mem_edgeSet]
  constructor
  · intro hm
    rcases h.2 _ hm with hm' | hm'
    · exact hm'
    · exfalso
      revert hm'
      simp
  · exact fun hm => h.1 hm

/-- What one pass-2 step may add, relative to the post-pass-1 graph `g1`:
only `(q', qudt:applicableUnit, u)` statements for processed quantities
`q'`, where `u` is directly declared on `q'` in `g1` or directly declared
on a strictly-narrower concept of `q'` in `g1`. -/
def P2Inv (g1 : Graph) (qs : List Term) (g : Graph) : Prop :=
  g1 ⊆ g ∧ ∀ tr ∈ g, tr ∈ g1 ∨ ∃ q' u, tr = (q', V.qudtApplicableUnit, u) ∧
    q' ∈ qs ∧ ((q', V.qudtApplicableUnit, u) ∈ g1 ∨
      ∃ n, n ∈ strictReach (edgeSet g1 V.skosBroader) q' ∧
        (n, V.qudtApplicableUnit, u) ∈ g1)

theorem p2inv_onlyAU {g1 : Graph} {qs : List Term} {g : Graph}
    (h : P2Inv g1 qs g) : OnlyAU g1 g := by
  refine ⟨h.1, fun tr htr => ?_⟩
  rcases h.2 tr htr with h' | ⟨q', u, rfl, _⟩
  · exact Or.inl h'
  · exact Or.inr rfl

theorem p2inv_step {g1 : Graph} {qs : List Term} {g : Graph} {q : Term}
    (h : P2Inv g1 qs g) (hq : q ∈ qs) : P2Inv g1 qs (g ∪ unitsQuery g q) := by
  have hE := edgeSet_eq_of_onlyAU (p2inv_onlyAU h)
  refine ⟨subset_trans h.1 Finset.subset_union_left, ?_⟩
  intro tr htr
  rcases Finset.mem_union.1 htr with htr | htr
  · exact h.2 tr htr
  · -- a freshly added unit statement for q
    obtain ⟨src, hsrc, rfl⟩ := Finset.mem_image.1 htr
    obtain ⟨hsrcg, hpred, hreach⟩ := Finset.mem_filter.1 hsrc
    rw [hE] at hreach
    right
    refine ⟨q, src.2.2, rfl, hq, ?_⟩
    rcases h.2 src hsrcg with hsg1 | ⟨q'', u'', heq, hq'', htgt⟩
    · -- the source statement already existed after pass 1
      right
      refine ⟨src.1, hreach, ?_⟩
      rcases src with ⟨s, p, o⟩
      cases hpred
      exact hsg1
    · -- the source statement was added earlier in pass 2
      rcases src with ⟨s, p, o⟩
      simp only [Prod.mk.injEq] at heq
      obtain ⟨rfl, -, rfl⟩ := heq
      rcases htgt with htgt | ⟨m, hm, hmu⟩
      · exact Or.inr ⟨s, hreach, htgt⟩
      · exact Or.inr ⟨m, strictReach_trans hm hreach, hmu⟩

theorem p2inv_fold {g1 : Graph} (R : List (Term × Term)) :
    ∀ (L : List (Term × Term)) (g : Graph), (∀ r ∈ L, r ∈ R) →
    P2Inv g1 (R.map Prod.fst) g →
    P2Inv g1 (R.map Prod.fst) (L.foldl (fun g r => g ∪ unitsQuery g r.1) g)
  | [], g, _, h => h
  | r :: rest, g, hsub, h => by
    rw [List.foldl_cons]
    refine p2inv_fold R rest _ (fun r' hr' => hsub r' (List.mem_cons_of_mem r hr')) ?_
    exact p2inv_step h (List.mem_map.2 ⟨r, hsub r (List.mem_cons_self r rest), rfl⟩)

theorem pass2_fold_mono : ∀ (L : List (Term × Term)) (g : Graph),
    g ⊆ L.foldl (fun g r => g ∪ unitsQuery g r.1) g
  | [], g => fun _ h => h
  | r :: rest, g => by
    rw [List.foldl_cons]
    exact subset_trans Finset.subset_union_left (pass2_fold_mono rest _)

/-- Every unit directly declared (in the post-pass-1 graph) on a
strictly-narrower concept of a processed quantity is added by the pass-2
fold. -/
theorem pass2_fold_covers {g1 : Graph} {q u : Term} :
    ∀ (L : List (Term × Term)) (g : Graph), OnlyAU g1 g →
    (∃ ref, (q, ref) ∈ L) →
    ((q, V.qudtApplicableUnit, u) ∈ g1 ∨
      ∃ n, n ∈ strictReach (edgeSet g1 V.skosBroader) q ∧
        (n, V.qudtApplicableUnit, u) ∈ g1) →
    (q, V.qudtApplicableUnit, u) ∈ L.foldl (fun g r => g ∪ unitsQuery g r.1) g
  | [], g, _, hmem, _ => absurd hmem (by simp)
  | r :: rest, g, hau, hmem, hu => by
    rw [List.foldl_cons]
    have hstep : OnlyAU g1 (g ∪ unitsQuery g r.1) := by
      refine ⟨subset_trans hau.1 Finset.subset_union_left, ?_⟩
      intro tr htr
      rcases Finset.mem_union.1 htr with htr | htr
      · exact hau.2 tr htr
      · obtain ⟨src, _, rfl⟩ := Finset.mem_image.1 htr
        exact Or.inr rfl
    obtain ⟨ref, href⟩ := hmem
    rcases List.mem_cons.1 href with heq | hrest
    · -- q is processed right now
      rcases hu with hu | ⟨n, hn, hnu⟩
      · exact pass2_fold_mono rest _
          (Finset.mem_union.2 (Or.inl (hau.1 hu)))
      · refine pass2_fold_mono rest _ (Finset.mem_union.2 (Or.inr ?_))
        have hr1 : r.1 = q := by rw [← heq]
        rw [hr1]
        refine Finset.mem_image.2 ⟨(n, V.qudtApplicableUnit, u),
          Finset.mem_filter.2 ⟨hau.1 hnu, rfl, ?_⟩, rfl⟩
        rw [edgeSet_eq_of_onlyAU hau]
        exact hn
    · exact pass2_fold_covers rest _ hstep ⟨ref, hrest⟩ hu

/-- The counterexample taxonomy augmented with a QUDT reference on the
quantity, so the `res` selection covers it. -/
def c3gref : Graph :=
  {(BRICK "Power", V.A, V.brickQuantity),
   (BRICK "Power", V.brickHasQUDTReference, Term.uri "qudtqk:Power"),
   (BRICK "Active_Power", V.skosBroader, BRICK "Power"),
   (BRICK "Active_Power", V.qudtApplicableUnit,
     Term.uri "http://qudt.org/vocab/unit/W")}

/-- C3 (amended): for every quantity selected by the propagation query —
those carrying a `brick:hasQUDTReference` — the applicable-unit set after
both passes is exactly the union of its directly-declared units (as of the
end of pass 1, which folds in the units of its QUDT reference) and the
units directly declared on its strictly-narrower concepts (one or more
`skos:broader` steps below it). Quantities without a QUDT reference are
not covered: pass 2 only iterates over the `res` pairs (see the
counterexample). -/
theorem C3_unit_propagation (g0 : Graph) (R : List (Term × Term))
    (getUnits : Term → List Term) (q ref : Term)
    (hq : (q, ref) ∈ R)
    (hquant : (q, V.A, V.brickQuantity) ∈ g0)
    (href : (q, V.brickHasQUDTReference, ref) ∈ g0) :
    ∀ u, ((q, V.qudtApplicableUnit, u) ∈ unitPasses g0 R getUnits ↔
      ((q, V.qudtApplicableUnit, u) ∈ unitPass1 g0 R getUnits ∨
        ∃ n, n ∈ strictReach
            (edgeSet (unitPass1 g0 R getUnits) V.skosBroader) q ∧
          (n, V.qudtApplicableUnit, u) ∈ unitPass1 g0 R getUnits)) := by
  intro u
  set g1 := unitPass1 g0 R getUnits with hg1
  have hbase : P2Inv g1 (R.map Prod.fst) g1 :=
    ⟨fun _ h => h, fun tr htr => Or.inl htr⟩
  have hfin := p2inv_fold R R g1 (fun _ h => h) hbase
  constructor
  · intro hmem
    rcases hfin.2 _ hmem with h | ⟨q', u', heq, _, htgt⟩
    · exact Or.inl h
    · simp only [Prod.mk.injEq] at heq
      obtain ⟨rfl, -, rfl⟩ := heq
      exact htgt
  · intro hu
    exact pass2_fold_covers R g1 ⟨fun _ h => h, fun tr htr => Or.inl htr⟩
      ⟨ref, hq⟩ hu

/-- Witness for C3 at a concrete input: a quantity with a QUDT reference
inherits its narrower concept's directly declared unit. -/
theorem C3_unit_propagation_witness :
    ((BRICK "Power", Term.uri "qudtqk:Power") ∈
        [(BRICK "Power", Term.uri "qudtqk:Power")] ∧
      (BRICK "Power", V.A, V.brickQuantity) ∈ c3gref ∧
      (BRICK "Power", V.brickHasQUDTReference, Term.uri "qudtqk:Power") ∈ c3gref) ∧
    ((BRICK "Power", V.qudtApplicableUnit, Term.uri "http://qudt.org/vocab/unit/W")
        ∈ unitPasses c3gref [(BRICK "Power", Term.uri "qudtqk:Power")] (fun _ => []) ↔
      ((BRICK "Power", V.qudtApplicableUnit, Term.uri "http://qudt.org/vocab/unit/W")
          ∈ unitPass1 c3gref [(BRICK "Power", Term.uri "qudtqk:Power")] (fun _ => []) ∨
        ∃ n, n ∈ strictReach
            (edgeSet (unitPass1 c3gref [(BRICK "Power", Term.uri "qudtqk:Power")]
              (fun _ => [])) V.skosBroader) (BRICK "Power") ∧
          (n, V.qudtApplicableUnit, Term.uri "http://qudt.org/vocab/unit/W")
            ∈ unitPass1 c3gref [(BRICK "Power", Term.uri "qudtqk:Power")]
              (fun _ => []))) :=
  ⟨⟨by decide, by decide, by decide⟩,
    C3_unit_propagation c3gref [(BRICK "Power", Term.uri "qudtqk:Power")]
      (fun _ => []) (BRICK "Power") (Term.uri "qudtqk:Power")
      (by decide) (by decide) (by decide)
      (Term.uri "http://qudt.org/vocab/unit/W")⟩

/-! ## Claims C4 and C5: the two sharing caches of the Tag Inference Engine

The deterministically derived node names of `add_tags` are separated by
their fixed suffixes; the lemmas below provide the needed disequalities
and cancellation facts. -/

/-- The last character of a string. -/
def strLast (s : String) : Option Char := s.data.getLast?

theorem strLast_append (a b : String) (h : b.data ≠ []) :
    strLast (a ++ b) = strLast b := by
  unfold strLast
  rw [String.data_append]
  exact List.getLast?_append_of_ne_nil a.data h

/-- Two strings with fixed suffixes whose last characters differ are never
equal, whatever their prefixes. -/
theorem append_suffix_ne {s1 s2 : String} (h1 : s1.data ≠ []) (h2 : s2.data ≠ [])
    (h : strLast s1 ≠ strLast s2) (a b : String) : a ++ s1 ≠ b ++ s2 := by
  intro he
  apply h
  rw [← strLast_append a s1 h1, ← strLast_append b s2 h2, he]

theorem tag_suffix_ne (a b : String) : a ++ "_tag" ≠ b ++ "_tags" :=
  append_suffix_ne (by decide) (by decide) (by decide) a b

theorem rule_body_suffix_ne (a b : String) :
    a ++ "TagInferenceRule" ≠ b ++ "_tags_body" :=
  append_suffix_ne (by decide) (by decide) (by decide) a b

theorem propNode_ne_cardPropNode (t : Term) (n : Nat) :
    propNode t ≠ cardPropNode n := by
  unfold propNode cardPropNode
  intro h
  rw [Term.bnode.injEq] at h
  exact tag_suffix_ne ("has_" ++ t.localName) ("has_exactly_" ++ toString n) h

theorem ruleForm_ne_bodyNode (s : String) (n : Nat) :
    Term.bnode (s ++ "TagInferenceRule") ≠ bodyNode n := by
  unfold bodyNode
  intro h
  rw [Term.bnode.injEq] at h
  exact rule_body_suffix_ne s ("has_" ++ toString n) h

theorem propNode_eq_imp {t t' : Term} (h : propNode t = propNode t') :
    condNode t = condNode t' := by
  unfold propNode at h
  rw [Term.bnode.injEq] at h
  have h2 := str_append_right_cancel h
  have h3 := str_append_left_cancel h2
  unfold condNode
  rw [h3]

theorem cardPropNode_eq_imp {m n : Nat} (h : cardPropNode m = cardPropNode n) :
    cardCondNode m = cardCondNode n := by
  unfold cardPropNode at h
  rw [Term.bnode.injEq] at h
  have h2 := str_append_left_cancel (str_append_right_cancel h)
  unfold cardCondNode BSH
  rw [h2]

theorem cardCondNode_eq_imp {m n : Nat} (h : cardCondNode m = cardCondNode n) :
    cardRuleNode m = cardRuleNode n ∧ bodyNode m = bodyNode n := by
  unfold cardCondNode BSH at h
  rw [Term.uri.injEq] at h
  have h2 := str_append_left_cancel h
  have h3 := str_append_left_cancel (str_append_right_cancel h2)
  constructor
  · unfold cardRuleNode BSH
    rw [h3]
  · unfold bodyNode
    rw [h3]

theorem bodyNode_eq_imp {m n : Nat} (h : bodyNode m = bodyNode n) :
    cardCondNode m = cardCondNode n ∧ cardRuleNode m = cardRuleNode n := by
  unfold bodyNode at h
  rw [Term.bnode.injEq] at h
  have h2 := str_append_left_cancel (str_append_right_cancel h)
  constructor
  · unfold cardCondNode BSH
    rw [h2]
  · unfold cardRuleNode BSH
    rw [h2]

/-- The tag detection condition for `t` is cached. -/
def TCached (st : St) (t : Term) : Prop :=
  (alist.lookup st.tagShapes t).isSome = true

/-- The exact-cardinality shape for `n` is cached. -/
def NCached (st : St) (n : Nat) : Prop :=
  (alist.lookup st.cardShapes n).isSome = true

/-- The structural invariant of the SHACL extension graph maintained by
`add_tags` across a whole run: the two caches hold exactly the
deterministically named nodes, each constraint-bearing statement slice of
`shaclGraph` is populated only by the known fragment shapes, and each
cached fragment's statements are present. -/
structure SInv (st : St) : Prop where
  cacheT : ∀ t c, alist.lookup st.tagShapes t = some c → c = condNode t
  cacheN : ∀ n c, alist.lookup st.cardShapes n = some c → c = cardCondNode n
  prop_an : ∀ x y, (x, V.shProperty, y) ∈ st.S →
    (∃ t, TCached st t ∧ x = condNode t ∧ y = propNode t) ∨
    (∃ n, NCached st n ∧ x = cardCondNode n ∧ y = cardPropNode n)
  prop_exT : ∀ t, TCached st t → (condNode t, V.shProperty, propNode t) ∈ st.S
  prop_exN : ∀ n, NCached st n →
    (cardCondNode n, V.shProperty, cardPropNode n) ∈ st.S
  path_exT : ∀ t, TCached st t → (propNode t, V.shPath, V.brickHasTag) ∈ st.S
  path_exN : ∀ n, NCached st n →
    (cardPropNode n, V.shPath, V.brickHasTag) ∈ st.S
  qvs_an : ∀ x y, (x, V.shQualifiedValueShape, y) ∈ st.S →
    ∃ t k, TCached st t ∧ x = propNode t ∧ y = Term.anon k ∧
      (y, V.shHasValue, t) ∈ st.S
  qvs_ex : ∀ t, TCached st t → ∃ k,
    (propNode t, V.shQualifiedValueShape, Term.anon k) ∈ st.S ∧
    (Term.anon k, V.shHasValue, t) ∈ st.S
  hv_fun : ∀ x y y', (x, V.shHasValue, y) ∈ st.S →
    (x, V.shHasValue, y') ∈ st.S → y = y'
  hv_bound : ∀ k y, (Term.anon k, V.shHasValue, y) ∈ st.S → k < st.next
  minc_an : ∀ x v, (x, V.shMinCount, v) ∈ st.S →
    ∃ n, NCached st n ∧ x = cardPropNode n ∧ v = Term.litNat n
  minc_ex : ∀ n, NCached st n →
    (cardPropNode n, V.shMinCount, Term.litNat n) ∈ st.S
  maxc_an : ∀ x v, (x, V.shMaxCount, v) ∈ st.S →
    ∃ n, NCached st n ∧ x = cardPropNode n ∧ v = Term.litNat n
  maxc_ex : ∀ n, NCached st n →
    (cardPropNode n, V.shMaxCount, Term.litNat n) ∈ st.S
  rule_an : ∀ x y, (x, V.shRule, y) ∈ st.S →
    (∃ s, y = Term.bnode (s ++ "TagInferenceRule")) ∨
    (∃ n, NCached st n ∧ x = cardRuleNode n ∧ y = bodyNode n)
  rule_exN : ∀ n, NCached st n → (cardRuleNode n, V.shRule, bodyNode n) ∈ st.S
  cond_an : ∀ x y, (x, V.shCondition, y) ∈ st.S →
    (∃ s s', x = Term.bnode (s ++ "TagInferenceRule") ∧ y = Term.bnode s') ∨
    (∃ n, NCached st n ∧ x = bodyNode n ∧ y = cardCondNode n)
  cond_exN : ∀ n, NCached st n →
    (bodyNode n, V.shCondition, cardCondNode n) ∈ st.S

/-- The initial state satisfies the invariant. -/
theorem sinv_init : SInv St.init := by
  constructor <;>
    first
      | (intro a b hc; exact absurd hc (by simp [St.init, alist.lookup]))
      | (intro a b c hc; exact absurd hc (by simp [St.init]))
      | (intro a hc; exact absurd hc (by simp [St.init, TCached, NCached, alist.lookup]))
      | (intro a b c hc hc2; exact absurd hc (by simp [St.init]))

theorem lookup_cons_isSome {α β : Type} [DecidableEq α] {k : α} {v : β}
    {l : List (α × β)} {a : α} :
    ((alist.lookup ((k, v) :: l) a).isSome = true) ↔
      (a = k ∨ (alist.lookup l a).isSome = true) := by
  show (if a = k then some v else alist.lookup l a).isSome = true ↔ _
  split <;> simp_all

theorem lookup_cons_val {α β : Type} [DecidableEq α] {k : α} {v : β}
    {l : List (α × β)} {a : α} {c : β}
    (h : alist.lookup ((k, v) :: l) a = some c) :
    (a = k ∧ c = v) ∨ (alist.lookup l a = some c) := by
  have h' : (if a = k then some v else alist.lookup l a) = some c := h
  split at h'
  · next he =>
    injection h' with h2
    exact Or.inl ⟨he, h2.symm⟩
  · exact Or.inr h'

/-- The batch of statements `tagCreate` adds to the SHACL graph. -/
theorem tagCreate_S (st : St) (rule tag : Term) :
    (tagCreate st rule tag).S = st.S.addAll
      [(rule, V.shCondition, condNode tag),
       (condNode tag, V.shProperty, propNode tag),
       (propNode tag, V.shPath, V.brickHasTag),
       (propNode tag, V.shQualifiedValueShape, Term.anon st.next),
       (Term.anon st.next, V.shHasValue, tag),
       (propNode tag, V.shQualifiedMinCount, Term.litNat 1)] := rfl

theorem tcached_tagCreate {st : St} {rule tag t : Term} :
    TCached (tagCreate st rule tag) t ↔ (t = tag ∨ TCached st t) := by
  unfold TCached
  exact lookup_cons_isSome

theorem ncached_tagCreate {st : St} {rule tag : Term} {n : Nat} :
    NCached (tagCreate st rule tag) n ↔ NCached st n := Iff.rfl

theorem tagCreate_sinv {st : St} {rule tag : Term}
    (hrule : ∃ s, rule = Term.bnode (s ++ "TagInferenceRule"))
    (h : SInv st) : SInv (tagCreate st rule tag) := by
  have hS := tagCreate_S st rule tag
  have hmono : st.S ⊆ (tagCreate st rule tag).S := by
    rw [hS]; exact subset_addAll _ _
  constructor
  case cacheT =>
    intro t c hc
    rcases lookup_cons_val hc with ⟨rfl, rfl⟩ | hc
    · rfl
    · exact h.cacheT t c hc
  case cacheN => exact h.cacheN
  case prop_an =>
    intro x y hm
    rw [hS, mem_addAll] at hm
    rcases hm with hm | hm
    · rcases h.prop_an x y hm with ⟨t, ht, hx, hy⟩ | ⟨n, hn, hx, hy⟩
      · exact Or.inl ⟨t, tcached_tagCreate.2 (Or.inr ht), hx, hy⟩
      · exact Or.inr ⟨n, ncached_tagCreate.2 hn, hx, hy⟩
    · simp only [List.mem_cons, List.not_mem_nil, or_false, Prod.mk.injEq] at hm
      rcases hm with ⟨_, hp, _⟩ | ⟨hx, _, hy⟩ | ⟨_, hp, _⟩ | ⟨_, hp, _⟩ | ⟨_, hp, _⟩ | ⟨_, hp, _⟩
      · exact absurd hp (by simp)
      · exact Or.inl ⟨tag, tcached_tagCreate.2 (Or.inl rfl), hx, hy⟩
      · exact absurd hp (by simp)
      · exact absurd hp (by simp)
      · exact absurd hp (by simp)
      · exact absurd hp (by simp)
  case prop_exT =>
    intro t ht
    rcases tcached_tagCreate.1 ht with rfl | ht
    · rw [hS, mem_addAll]
      right
      simp
    · exact hmono (h.prop_exT t ht)
  case prop_exN =>
    intro n hn
    exact hmono (h.prop_exN n (ncached_tagCreate.1 hn))
  case path_exT =>
    intro t ht
    rcases tcached_tagCreate.1 ht with rfl | ht
    · rw [hS, mem_addAll]
      right
      simp
    · exact hmono (h.path_exT t ht)
  case path_exN =>
    intro n hn
    exact hmono (h.path_exN n (ncached_tagCreate.1 hn))
  case qvs_an =>
    intro x y hm
    rw [hS, mem_addAll] at hm
    rcases hm with hm | hm
    · obtain ⟨t, k, ht, hx, hy, hpay⟩ := h.qvs_an x y hm
      exact ⟨t, k, tcached_tagCreate.2 (Or.inr ht), hx, hy, hmono hpay⟩
    · simp only [List.mem_cons, List.not_mem_nil, or_false, Prod.mk.injEq] at hm
      rcases hm with ⟨_, hp, _⟩ | ⟨_, hp, _⟩ | ⟨_, hp, _⟩ | ⟨hx, _, hy⟩ | ⟨_, hp, _⟩ | ⟨_, hp, _⟩
      · exact absurd hp (by simp)
      · exact absurd hp (by simp)
      · exact absurd hp (by simp)
      · subst hx
        subst hy
        refine ⟨tag, st.next, tcached_tagCreate.2 (Or.inl rfl), rfl, rfl, ?_⟩
        rw [hS, mem_addAll]
        right
        simp
      · exact absurd hp (by simp)
      · exact absurd hp (by simp)
  case qvs_ex =>
    intro t ht
    rcases tcached_tagCreate.1 ht with rfl | ht
    · refine ⟨st.next, ?_, ?_⟩ <;> (rw [hS, mem_addAll]; right; simp)
    · obtain ⟨k, h1, h2⟩ := h.qvs_ex t ht
      exact ⟨k, hmono h1, hmono h2⟩
  case hv_fun =>
    intro x y y' hm hm'
    rw [hS, mem_addAll] at hm hm'
    have hnew : ∀ z : Term, (x, V.shHasValue, z) ∈
        [(rule, V.shCondition, condNode tag),
         (condNode tag, V.shProperty, propNode tag),
         (propNode tag, V.shPath, V.brickHasTag),
         (propNode tag, V.shQualifiedValueShape, Term.anon st.next),
         (Term.anon st.next, V.shHasValue, tag),
         (propNode tag, V.shQualifiedMinCount, Term.litNat 1)] →
        x = Term.anon st.next ∧ z = tag := by
      intro z hz
      simp only [List.mem_cons, List.not_mem_nil, or_false, Prod.mk.injEq] at hz
      rcases hz with ⟨_, hp, _⟩ | ⟨_, hp, _⟩ | ⟨_, hp, _⟩ | ⟨_, hp, _⟩ | ⟨hx, _, hzz⟩ | ⟨_, hp, _⟩
      · exact absurd hp (by simp)
      · exact absurd hp (by simp)
      · exact absurd hp (by simp)
      · exact absurd hp (by simp)
      · exact ⟨hx, hzz⟩
      · exact absurd hp (by simp)
    rcases hm with hm | hm
    · rcases hm' with hm' | hm'
      · exact h.hv_fun x y y' hm hm'
      · obtain ⟨rfl, rfl⟩ := hnew y' hm'
        exact absurd (h.hv_bound st.next y hm) (by omega)
    · obtain ⟨rfl, rfl⟩ := hnew y hm
      rcases hm' with hm' | hm'
      · exact absurd (h.hv_bound st.next y' hm') (by omega)
      · obtain ⟨-, rfl⟩ := hnew y' hm'
        rfl
  case hv_bound =>
    intro k y hm
    rw [hS, mem_addAll] at hm
    show k < st.next + 1
    rcases hm with hm | hm
    · have := h.hv_bound k y hm
      omega
    · simp only [List.mem_cons, List.not_mem_nil, or_false, Prod.mk.injEq] at hm
      rcases hm with ⟨_, hp, _⟩ | ⟨hx, hp, _⟩ | ⟨_, hp, _⟩ | ⟨_, hp, _⟩ | ⟨hx, _, _⟩ | ⟨_, hp, _⟩
      · exact absurd hp (by simp)
      · exact absurd hx (by simp [condNode])
      · exact absurd hp (by simp)
      · exact absurd hp (by simp)
      · rw [Term.anon.injEq] at hx
        omega
      · exact absurd hp (by simp)
  case minc_an =>
    intro x v hm
    rw [hS, mem_addAll] at hm
    rcases hm with hm | hm
    · obtain ⟨n, hn, hx, hv⟩ := h.minc_an x v hm
      exact ⟨n, ncached_tagCreate.2 hn, hx, hv⟩
    · simp only [List.mem_cons, List.not_mem_nil, or_false, Prod.mk.injEq] at hm
      rcases hm with ⟨_, hp, _⟩ | ⟨_, hp, _⟩ | ⟨_, hp, _⟩ | ⟨_, hp, _⟩ | ⟨_, hp, _⟩ | ⟨_, hp, _⟩ <;>
        exact absurd hp (by simp)
  case minc_ex =>
    intro n hn
    exact hmono (h.minc_ex n (ncached_tagCreate.1 hn))
  case maxc_an =>
    intro x v hm
    rw [hS, mem_addAll] at hm
    rcases hm with hm | hm
    · obtain ⟨n, hn, hx, hv⟩ := h.maxc_an x v hm
      exact ⟨n, ncached_tagCreate.2 hn, hx, hv⟩
    · simp only [List.mem_cons, List.not_mem_nil, or_false, Prod.mk.injEq] at hm
      rcases hm with ⟨_, hp, _⟩ | ⟨_, hp, _⟩ | ⟨_, hp, _⟩ | ⟨_, hp, _⟩ | ⟨_, hp, _⟩ | ⟨_, hp, _⟩ <;>
        exact absurd hp (by simp)
  case maxc_ex =>
    intro n hn
    exact hmono (h.maxc_ex n (ncached_tagCreate.1 hn))
  case rule_an =>
    intro x y hm
    rw [hS, mem_addAll] at hm
    rcases hm with hm | hm
    · rcases h.rule_an x y hm with hr | ⟨n, hn, hx, hy⟩
      · exact Or.inl hr
      · exact Or.inr ⟨n, ncached_tagCreate.2 hn, hx, hy⟩
    · simp only [List.mem_cons, List.not_mem_nil, or_false, Prod.mk.injEq] at hm
      rcases hm with ⟨_, hp, _⟩ | ⟨_, hp, _⟩ | ⟨_, hp, _⟩ | ⟨_, hp, _⟩ | ⟨_, hp, _⟩ | ⟨_, hp, _⟩ <;>
        exact absurd hp (by simp)
  case rule_exN =>
    intro n hn
    exact hmono (h.rule_exN n (ncached_tagCreate.1 hn))
  case cond_an =>
    intro x y hm
    rw [hS, mem_addAll] at hm
    rcases hm with hm | hm
    · rcases h.cond_an x y hm with hr | ⟨n, hn, hx, hy⟩
      · exact Or.inl hr
      · exact Or.inr ⟨n, ncached_tagCreate.2 hn, hx, hy⟩
    · simp only [List.mem_cons, List.not_mem_nil, or_false, Prod.mk.injEq] at hm
      rcases hm with ⟨hx, _, hy⟩ | ⟨_, hp, _⟩ | ⟨_, hp, _⟩ | ⟨_, hp, _⟩ | ⟨_, hp, _⟩ | ⟨_, hp, _⟩
      · obtain ⟨s, hs⟩ := hrule
        exact Or.inl ⟨s, "has_" ++ tag.localName ++ "_condition", by rw [hx, hs],
          by rw [hy]; rfl⟩
      · exact absurd hp (by simp)
      · exact absurd hp (by simp)
      · exact absurd hp (by simp)
      · exact absurd hp (by simp)
      · exact absurd hp (by simp)
  case cond_exN =>
    intro n hn
    exact hmono (h.cond_exN n (ncached_tagCreate.1 hn))

theorem sinv_G {st : St} {g : Graph} (h : SInv st) : SInv { st with G := g } :=
  { cacheT := h.cacheT, cacheN := h.cacheN, prop_an := h.prop_an,
    prop_exT := h.prop_exT, prop_exN := h.prop_exN, path_exT := h.path_exT,
    path_exN := h.path_exN, qvs_an := h.qvs_an, qvs_ex := h.qvs_ex,
    hv_fun := h.hv_fun, hv_bound := h.hv_bound, minc_an := h.minc_an,
    minc_ex := h.minc_ex, maxc_an := h.maxc_an, maxc_ex := h.maxc_ex,
    rule_an := h.rule_an, rule_exN := h.rule_exN, cond_an := h.cond_an,
    cond_exN := h.cond_exN }

/-- The cached condition for a cached tag is its deterministic node. -/
theorem cached_cond_val {st : St} {tag : Term} (h : SInv st)
    (ht : TCached st tag) :
    (alist.lookup st.tagShapes tag).getD (Term.uri "KeyError") = condNode tag := by
  obtain ⟨c, hc⟩ := Option.isSome_iff_exists.1 ht
  rw [hc]
  exact h.cacheT tag c hc

theorem attach_sinv {st : St} {rule tag : Term}
    (hrule : ∃ s, rule = Term.bnode (s ++ "TagInferenceRule"))
    (ht : TCached st tag) (h : SInv st) :
    SInv { st with S := st.S.add (rule, V.shCondition,
      (alist.lookup st.tagShapes tag).getD (Term.uri "KeyError")) } := by
  rw [cached_cond_val h ht]
  have hmem : ∀ x : Triple,
      x ∈ st.S.add (rule, V.shCondition, condNode tag) ↔
        x = (rule, V.shCondition, condNode tag) ∨ x ∈ st.S := fun _ => mem_add
  constructor
  case cacheT => exact h.cacheT
  case cacheN => exact h.cacheN
  case prop_an =>
    intro x y hm
    rcases (hmem _).1 hm with hm | hm
    · exact absurd (congrArg (fun tr : Triple => tr.2.1) hm) (by simp)
    · exact h.prop_an x y hm
  case prop_exT => exact fun t ht' => (hmem _).2 (Or.inr (h.prop_exT t ht'))
  case prop_exN => exact fun n hn => (hmem _).2 (Or.inr (h.prop_exN n hn))
  case path_exT => exact fun t ht' => (hmem _).2 (Or.inr (h.path_exT t ht'))
  case path_exN => exact fun n hn => (hmem _).2 (Or.inr (h.path_exN n hn))
  case qvs_an =>
    intro x y hm
    rcases (hmem _).1 hm with hm | hm
    · exact absurd (congrArg (fun tr : Triple => tr.2.1) hm) (by simp)
    · obtain ⟨t, k, ht', hx, hy, hpay⟩ := h.qvs_an x y hm
      exact ⟨t, k, ht', hx, hy, (hmem _).2 (Or.inr hpay)⟩
  case qvs_ex =>
    intro t ht'
    obtain ⟨k, h1, h2⟩ := h.qvs_ex t ht'
    exact ⟨k, (hmem _).2 (Or.inr h1), (hmem _).2 (Or.inr h2)⟩
  case hv_fun =>
    intro x y y' hm hm'
    rcases (hmem _).1 hm with hm | hm
    · exact absurd (congrArg (fun tr : Triple => tr.2.1) hm) (by simp)
    · rcases (hmem _).1 hm' with hm' | hm'
      · exact absurd (congrArg (fun tr : Triple => tr.2.1) hm') (by simp)
      · exact h.hv_fun x y y' hm hm'
  case hv_bound =>
    intro k y hm
    rcases (hmem _).1 hm with hm | hm
    · exact absurd (congrArg (fun tr : Triple => tr.2.1) hm) (by simp)
    · exact h.hv_bound k y hm
  case minc_an =>
    intro x v hm
    rcases (hmem _).1 hm with hm | hm
    · exact absurd (congrArg (fun tr : Triple => tr.2.1) hm) (by simp)
    · exact h.minc_an x v hm
  case minc_ex => exact fun n hn => (hmem _).2 (Or.inr (h.minc_ex n hn))
  case maxc_an =>
    intro x v hm
    rcases (hmem _).1 hm with hm | hm
    · exact absurd (congrArg (fun tr : Triple => tr.2.1) hm) (by simp)
    · exact h.maxc_an x v hm
  case maxc_ex => exact fun n hn => (hmem _).2 (Or.inr (h.maxc_ex n hn))
  case rule_an =>
    intro x y hm
    rcases (hmem _).1 hm with hm | hm
    · exact absurd (congrArg (fun tr : Triple => tr.2.1) hm) (by simp)
    · exact h.rule_an x y hm
  case rule_exN => exact fun n hn => (hmem _).2 (Or.inr (h.rule_exN n hn))
  case cond_an =>
    intro x y hm
    rcases (hmem _).1 hm with hm | hm
    · obtain ⟨s, hs⟩ := hrule
      have hx := congrArg (fun tr : Triple => tr.1) hm
      have hy := congrArg (fun tr : Triple => tr.2.2) hm
      simp only at hx hy
      exact Or.inl ⟨s, "has_" ++ tag.localName ++ "_condition",
        by rw [hx, hs], by rw [hy]; rfl⟩
    · rcases h.cond_an x y hm with hr | ⟨n, hn, hx, hy⟩
      · exact Or.inl hr
      · exact Or.inr ⟨n, hn, hx, hy⟩
  case cond_exN => exact fun n hn => (hmem _).2 (Or.inr (h.cond_exN n hn))

theorem tagLoopStep_sinv {klass rule : Term} {st : St} {tag : Term}
    (hrule : ∃ s, rule = Term.bnode (s ++ "TagInferenceRule"))
    (h : SInv st) : SInv (tagLoopStep klass rule st tag) := by
  unfold tagLoopStep
  dsimp only
  split
  · next hmiss =>
    exact attach_sinv hrule (tcached_tagCreate.2 (Or.inl rfl))
      (tagCreate_sinv hrule (sinv_G h))
  · next hhit =>
    refine attach_sinv hrule ?_ (sinv_G h)
    unfold TCached
    rcases ho : (alist.lookup st.tagShapes tag) with _ | c
    · exact absurd (by rw [ho]; rfl) hhit
    · rfl

/-- Adding statements whose predicates are outside every analysed slice
(with `sh:rule` statements allowed when they point at a rule node of the
`TagInferenceRule` form) preserves the invariant. -/
theorem sinv_addS_inert {st : St} {ts : List Triple}
    (hin : ∀ tr ∈ ts, tr.2.1 ≠ V.shProperty ∧
      tr.2.1 ≠ V.shQualifiedValueShape ∧ tr.2.1 ≠ V.shHasValue ∧
      tr.2.1 ≠ V.shMinCount ∧ tr.2.1 ≠ V.shMaxCount ∧ tr.2.1 ≠ V.shCondition)
    (hrule : ∀ tr ∈ ts, tr.2.1 = V.shRule →
      ∃ s, tr.2.2 = Term.bnode (s ++ "TagInferenceRule"))
    (h : SInv st) : SInv { st with S := st.S.addAll ts } := by
  have hmem : ∀ x : Triple, x ∈ st.S.addAll ts ↔ x ∈ st.S ∨ x ∈ ts :=
    fun _ => mem_addAll
  constructor
  case cacheT => exact h.cacheT
  case cacheN => exact h.cacheN
  case prop_an =>
    intro x y hm
    rcases (hmem _).1 hm with hm | hm
    · exact h.prop_an x y hm
    · exact absurd rfl (hin _ hm).1
  case prop_exT => exact fun t ht => (hmem _).2 (Or.inl (h.prop_exT t ht))
  case prop_exN => exact fun n hn => (hmem _).2 (Or.inl (h.prop_exN n hn))
  case path_exT => exact fun t ht => (hmem _).2 (Or.inl (h.path_exT t ht))
  case path_exN => exact fun n hn => (hmem _).2 (Or.inl (h.path_exN n hn))
  case qvs_an =>
    intro x y hm
    rcases (hmem _).1 hm with hm | hm
    · obtain ⟨t, k, ht, hx, hy, hpay⟩ := h.qvs_an x y hm
      exact ⟨t, k, ht, hx, hy, (hmem _).2 (Or.inl hpay)⟩
    · exact absurd rfl (hin _ hm).2.1
  case qvs_ex =>
    intro t ht
    obtain ⟨k, h1, h2⟩ := h.qvs_ex t ht
    exact ⟨k, (hmem _).2 (Or.inl h1), (hmem _).2 (Or.inl h2)⟩
  case hv_fun =>
    intro x y y' hm hm'
    rcases (hmem _).1 hm with hm | hm
    · rcases (hmem _).1 hm' with hm' | hm'
      · exact h.hv_fun x y y' hm hm'
      · exact absurd rfl (hin _ hm').2.2.1
    · exact absurd rfl (hin _ hm).2.2.1
  case hv_bound =>
    intro k y hm
    rcases (hmem _).1 hm with hm | hm
    · exact h.hv_bound k y hm
    · exact absurd rfl (hin _ hm).2.2.1
  case minc_an =>
    intro x v hm
    rcases (hmem _).1 hm with hm | hm
    · exact h.minc_an x v hm
    · exact absurd rfl (hin _ hm).2.2.2.1
  case minc_ex => exact fun n hn => (hmem _).2 (Or.inl (h.minc_ex n hn))
  case maxc_an =>
    intro x v hm
    rcases (hmem _).1 hm with hm | hm
    · exact h.maxc_an x v hm
    · exact absurd rfl (hin _ hm).2.2.2.2.1
  case maxc_ex => exact fun n hn => (hmem _).2 (Or.inl (h.maxc_ex n hn))
  case rule_an =>
    intro x y hm
    rcases (hmem _).1 hm with hm | hm
    · exact h.rule_an x y hm
    · obtain ⟨s, hs⟩ := hrule _ hm rfl
      exact Or.inl ⟨s, hs⟩
  case rule_exN => exact fun n hn => (hmem _).2 (Or.inl (h.rule_exN n hn))
  case cond_an =>
    intro x y hm
    rcases (hmem _).1 hm with hm | hm
    · exact h.cond_an x y hm
    · exact absurd rfl (hin _ hm).2.2.2.2.2
  case cond_exN => exact fun n hn => (hmem _).2 (Or.inl (h.cond_exN n hn))

theorem tcached_cardBlock {st : St} {n : Nat} {t : Term} :
    TCached (cardBlock st n) t ↔ TCached st t := by
  unfold cardBlock
  split <;> rfl

theorem ncached_cardBlock {st : St} {n m : Nat} :
    NCached (cardBlock st n) m ↔ (m = n ∨ NCached st m) := by
  unfold cardBlock NCached
  split
  · next hmiss =>
    dsimp only
    rw [lookup_cons_isSome]
  · next hhit =>
    constructor
    · exact Or.inr
    · rintro (rfl | hm)
      · rw [Option.isNone_iff_eq_none] at hhit
        rcases ho : alist.lookup st.cardShapes m with _ | c
        · exact absurd ho hhit
        · rfl
      · exact hm

/-- The batch of statements a cache-miss `cardBlock` adds. -/
theorem cardBlock_S_miss {st : St} {n : Nat}
    (hmiss : (alist.lookup st.cardShapes n).isNone = true) :
    (cardBlock st n).S = st.S.addAll
      [(cardCondNode n, V.A, V.owlClass),
       (cardCondNode n, V.A, V.shNodeShape),
       (cardCondNode n, V.shProperty, cardPropNode n),
       (cardPropNode n, V.shPath, V.brickHasTag),
       (cardPropNode n, V.shMinCount, Term.litNat n),
       (cardPropNode n, V.shMaxCount, Term.litNat n),
       (cardRuleNode n, V.A, V.shNodeShape),
       (cardRuleNode n, V.shTargetSubjectsOf, V.brickHasTag),
       (cardRuleNode n, V.shRule, bodyNode n),
       (bodyNode n, V.A, V.shTripleRule),
       (bodyNode n, V.shSubject, V.shThis),
       (bodyNode n, V.shPredicate, V.A),
       (bodyNode n, V.shObject, cardCondNode n),
       (bodyNode n, V.shCondition, cardCondNode n)] := by
  unfold cardBlock
  rw [if_pos hmiss]
  dsimp only
  rw [← addAll_append]
  rfl

theorem cardBlock_sinv {st : St} {n : Nat} (h : SInv st) :
    SInv (cardBlock st n) := by
  rcases hcase : (alist.lookup st.cardShapes n).isNone with hfalse | htrue
  · -- cache hit: no change
    unfold cardBlock
    rw [if_neg (by rw [hcase]; exact Bool.false_ne_true)]
    exact h
  · -- cache miss: the full creation batch
    have hS := cardBlock_S_miss hcase
    have hT : ∀ t, TCached (cardBlock st n) t ↔ TCached st t := fun _ => tcached_cardBlock
    have hN : ∀ m, NCached (cardBlock st n) m ↔ (m = n ∨ NCached st m) :=
      fun _ => ncached_cardBlock
    have hmono : st.S ⊆ (cardBlock st n).S := by rw [hS]; exact subset_addAll _ _
    have hcacheN : ∀ m c, alist.lookup (cardBlock st n).cardShapes m = some c →
        c = cardCondNode m := by
      intro m c hc
      have heq : (cardBlock st n).cardShapes = (n, cardCondNode n) :: st.cardShapes := by
        unfold cardBlock
        rw [if_pos hcase]
      rw [heq] at hc
      rcases lookup_cons_val hc with ⟨rfl, rfl⟩ | hc
      · rfl
      · exact h.cacheN m c hc
    have hcacheT : ∀ t c, alist.lookup (cardBlock st n).tagShapes t = some c →
        c = condNode t := by
      intro t c hc
      have hteq : (cardBlock st n).tagShapes = st.tagShapes := by
        unfold cardBlock
        rw [if_pos hcase]
      rw [hteq] at hc
      exact h.cacheT t c hc
    constructor
    case cacheT => exact hcacheT
    case cacheN => exact hcacheN
    case prop_an =>
      intro x y hm
      rw [hS, mem_addAll] at hm
      rcases hm with hm | hm
      · rcases h.prop_an x y hm with ⟨t, ht, hx, hy⟩ | ⟨m, hmc, hx, hy⟩
        · exact Or.inl ⟨t, (hT t).2 ht, hx, hy⟩
        · exact Or.inr ⟨m, (hN m).2 (Or.inr hmc), hx, hy⟩
      · simp only [List.mem_cons, List.not_mem_nil, or_false, Prod.mk.injEq] at hm
        rcases hm with ⟨_, hp, _⟩ | ⟨_, hp, _⟩ | ⟨hx, _, hy⟩ | ⟨_, hp, _⟩ | ⟨_, hp, _⟩ |
          ⟨_, hp, _⟩ | ⟨_, hp, _⟩ | ⟨_, hp, _⟩ | ⟨_, hp, _⟩ | ⟨_, hp, _⟩ | ⟨_, hp, _⟩ |
          ⟨_, hp, _⟩ | ⟨_, hp, _⟩ | ⟨_, hp, _⟩
        · exact absurd hp (by simp)
        · exact absurd hp (by simp)
        · exact Or.inr ⟨n, (hN n).2 (Or.inl rfl), hx, hy⟩
        all_goals exact absurd hp (by simp)
    case prop_exT =>
      intro t ht
      exact hmono (h.prop_exT t ((hT t).1 ht))
    case prop_exN =>
      intro m hmc
      rcases (hN m).1 hmc with rfl | hmc
      · rw [hS, mem_addAll]; right; simp
      · exact hmono (h.prop_exN m hmc)
    case path_exT =>
      intro t ht
      exact hmono (h.path_exT t ((hT t).1 ht))
    case path_exN =>
      intro m hmc
      rcases (hN m).1 hmc with rfl | hmc
      · rw [hS, mem_addAll]; right; simp
      · exact hmono (h.path_exN m hmc)
    case qvs_an =>
      intro x y hm
      rw [hS, mem_addAll] at hm
      rcases hm with hm | hm
      · obtain ⟨t, k, ht, hx, hy, hpay⟩ := h.qvs_an x y hm
        exact ⟨t, k, (hT t).2 ht, hx, hy, hmono hpay⟩
      · simp only [List.mem_cons, List.not_mem_nil, or_false, Prod.mk.injEq] at hm
        rcases hm with ⟨_, hp, _⟩ | ⟨_, hp, _⟩ | ⟨_, hp, _⟩ | ⟨_, hp, _⟩ | ⟨_, hp, _⟩ |
          ⟨_, hp, _⟩ | ⟨_, hp, _⟩ | ⟨_, hp, _⟩ | ⟨_, hp, _⟩ | ⟨_, hp, _⟩ | ⟨_, hp, _⟩ |
          ⟨_, hp, _⟩ | ⟨_, hp, _⟩ | ⟨_, hp, _⟩ <;>
          exact absurd hp (by simp)
    case qvs_ex =>
      intro t ht
      obtain ⟨k, h1, h2⟩ := h.qvs_ex t ((hT t).1 ht)
      exact ⟨k, hmono h1, hmono h2⟩
    case hv_fun =>
      intro x y y' hm hm'
      rw [hS, mem_addAll] at hm hm'
      have hbase : (x, V.shHasValue, y) ∈ st.S := by
        rcases hm with hz | hz
        · exact hz
        · simp only [List.mem_cons, List.not_mem_nil, or_false, Prod.mk.injEq] at hz
          rcases hz with ⟨_, hp, _⟩ | ⟨_, hp, _⟩ | ⟨_, hp, _⟩ | ⟨_, hp, _⟩ | ⟨_, hp, _⟩ |
            ⟨_, hp, _⟩ | ⟨_, hp, _⟩ | ⟨_, hp, _⟩ | ⟨_, hp, _⟩ | ⟨_, hp, _⟩ | ⟨_, hp, _⟩ |
            ⟨_, hp, _⟩ | ⟨_, hp, _⟩ | ⟨_, hp, _⟩ <;>
            exact absurd hp (by simp)
      have hbase' : (x, V.shHasValue, y') ∈ st.S := by
        rcases hm' with hz | hz
        · exact hz
        · simp only [List.mem_cons, List.not_mem_nil, or_false, Prod.mk.injEq] at hz
          rcases hz with ⟨_, hp, _⟩ | ⟨_, hp, _⟩ | ⟨_, hp, _⟩ | ⟨_, hp, _⟩ | ⟨_, hp, _⟩ |
            ⟨_, hp, _⟩ | ⟨_, hp, _⟩ | ⟨_, hp, _⟩ | ⟨_, hp, _⟩ | ⟨_, hp, _⟩ | ⟨_, hp, _⟩ |
            ⟨_, hp, _⟩ | ⟨_, hp, _⟩ | ⟨_, hp, _⟩ <;>
            exact absurd hp (by simp)
      exact h.hv_fun x y y' hbase hbase'
    case hv_bound =>
      intro k y hm
      rw [hS, mem_addAll] at hm
      have hnext : (cardBlock st n).next = st.next := by
        unfold cardBlock
        rw [if_pos hcase]
      rw [hnext]
      rcases hm with hm | hm
      · exact h.hv_bound k y hm
      · simp only [List.mem_cons, List.not_mem_nil, or_false, Prod.mk.injEq] at hm
        rcases hm with ⟨_, hp, _⟩ | ⟨_, hp, _⟩ | ⟨_, hp, _⟩ | ⟨_, hp, _⟩ | ⟨_, hp, _⟩ |
          ⟨_, hp, _⟩ | ⟨_, hp, _⟩ | ⟨_, hp, _⟩ | ⟨_, hp, _⟩ | ⟨_, hp, _⟩ | ⟨_, hp, _⟩ |
          ⟨_, hp, _⟩ | ⟨_, hp, _⟩ | ⟨_, hp, _⟩ <;>
          exact absurd hp (by simp)
    case minc_an =>
      intro x v hm
      rw [hS, mem_addAll] at hm
      rcases hm with hm | hm
      · obtain ⟨m, hmc, hx, hv⟩ := h.minc_an x v hm
        exact ⟨m, (hN m).2 (Or.inr hmc), hx, hv⟩
      · simp only [List.mem_cons, List.not_mem_nil, or_false, Prod.mk.injEq] at hm
        rcases hm with ⟨_, hp, _⟩ | ⟨_, hp, _⟩ | ⟨_, hp, _⟩ | ⟨_, hp, _⟩ | ⟨hx, _, hv⟩ |
          ⟨_, hp, _⟩ | ⟨_, hp, _⟩ | ⟨_, hp, _⟩ | ⟨_, hp, _⟩ | ⟨_, hp, _⟩ | ⟨_, hp, _⟩ |
          ⟨_, hp, _⟩ | ⟨_, hp, _⟩ | ⟨_, hp, _⟩
        · exact absurd hp (by simp)
        · exact absurd hp (by simp)
        · exact absurd hp (by simp)
        · exact absurd hp (by simp)
        · exact ⟨n, (hN n).2 (Or.inl rfl), hx, hv⟩
        all_goals exact absurd hp (by simp)
    case minc_ex =>
      intro m hmc
      rcases (hN m).1 hmc with rfl | hmc
      · rw [hS, mem_addAll]; right; simp
      · exact hmono (h.minc_ex m hmc)
    case maxc_an =>
      intro x v hm
      rw [hS, mem_addAll] at hm
      rcases hm with hm | hm
      · obtain ⟨m, hmc, hx, hv⟩ := h.maxc_an x v hm
        exact ⟨m, (hN m).2 (Or.inr hmc), hx, hv⟩
      · simp only [List.mem_cons, List.not_mem_nil, or_false, Prod.mk.injEq] at hm
        rcases hm with ⟨_, hp, _⟩ | ⟨_, hp, _⟩ | ⟨_, hp, _⟩ | ⟨_, hp, _⟩ | ⟨_, hp, _⟩ |
          ⟨hx, _, hv⟩ | ⟨_, hp, _⟩ | ⟨_, hp, _⟩ | ⟨_, hp, _⟩ | ⟨_, hp, _⟩ | ⟨_, hp, _⟩ |
          ⟨_, hp, _⟩ | ⟨_, hp, _⟩ | ⟨_, hp, _⟩
        · exact absurd hp (by simp)
        · exact absurd hp (by simp)
        · exact absurd hp (by simp)
        · exact absurd hp (by simp)
        · exact absurd hp (by simp)
        · exact ⟨n, (hN n).2 (Or.inl rfl), hx, hv⟩
        all_goals exact absurd hp (by simp)
    case maxc_ex =>
      intro m hmc
      rcases (hN m).1 hmc with rfl | hmc
      · rw [hS, mem_addAll]; right; simp
      · exact hmono (h.maxc_ex m hmc)
    case rule_an =>
      intro x y hm
      rw [hS, mem_addAll] at hm
      rcases hm with hm | hm
      · rcases h.rule_an x y hm with hr | ⟨m, hmc, hx, hy⟩
        · exact Or.inl hr
        · exact Or.inr ⟨m, (hN m).2 (Or.inr hmc), hx, hy⟩
      · simp only [List.mem_cons, List.not_mem_nil, or_false, Prod.mk.injEq] at hm
        rcases hm with ⟨_, hp, _⟩ | ⟨_, hp, _⟩ | ⟨_, hp, _⟩ | ⟨_, hp, _⟩ | ⟨_, hp, _⟩ |
          ⟨_, hp, _⟩ | ⟨_, hp, _⟩ | ⟨_, hp, _⟩ | ⟨hx, _, hy⟩ | ⟨_, hp, _⟩ | ⟨_, hp, _⟩ |
          ⟨_, hp, _⟩ | ⟨_, hp, _⟩ | ⟨_, hp, _⟩
        · exact absurd hp (by simp)
        · exact absurd hp (by simp)
        · exact absurd hp (by simp)
        · exact absurd hp (by simp)
        · exact absurd hp (by simp)
        · exact absurd hp (by simp)
        · exact absurd hp (by simp)
        · exact absurd hp (by simp)
        · exact Or.inr ⟨n, (hN n).2 (Or.inl rfl), hx, hy⟩
        all_goals exact absurd hp (by simp)
    case rule_exN =>
      intro m hmc
      rcases (hN m).1 hmc with rfl | hmc
      · rw [hS, mem_addAll]; right; simp
      · exact hmono (h.rule_exN m hmc)
    case cond_an =>
      intro x y hm
      rw [hS, mem_addAll] at hm
      rcases hm with hm | hm
      · rcases h.cond_an x y hm with hr | ⟨m, hmc, hx, hy⟩
        · exact Or.inl hr
        · exact Or.inr ⟨m, (hN m).2 (Or.inr hmc), hx, hy⟩
      · simp only [List.mem_cons, List.not_mem_nil, or_false, Prod.mk.injEq] at hm
        rcases hm with ⟨_, hp, _⟩ | ⟨_, hp, _⟩ | ⟨_, hp, _⟩ | ⟨_, hp, _⟩ | ⟨_, hp, _⟩ |
          ⟨_, hp, _⟩ | ⟨_, hp, _⟩ | ⟨_, hp, _⟩ | ⟨_, hp, _⟩ | ⟨_, hp, _⟩ | ⟨_, hp, _⟩ |
          ⟨_, hp, _⟩ | ⟨_, hp, _⟩ | ⟨hx, _, hy⟩
        · exact absurd hp (by simp)
        · exact absurd hp (by simp)
        · exact absurd hp (by simp)
        · exact absurd hp (by simp)
        · exact absurd hp (by simp)
        · exact absurd hp (by simp)
        · exact absurd hp (by simp)
        · exact absurd hp (by simp)
        · exact absurd hp (by simp)
        · exact absurd hp (by simp)
        · exact absurd hp (by simp)
        · exact absurd hp (by simp)
        · exact absurd hp (by simp)
        · exact Or.inr ⟨n, (hN n).2 (Or.inl rfl), hx, hy⟩
    case cond_exN =>
      intro m hmc
      rcases (hN m).1 hmc with rfl | hmc
      · rw [hS, mem_addAll]; right; simp
      · exact hmono (h.cond_exN m hmc)

/-- The cached cardinality shape for a cached count is its deterministic node. -/
theorem cached_card_val {st : St} {n : Nat} (h : SInv st) (hn : NCached st n) :
    (alist.lookup st.cardShapes n).getD (Term.uri "KeyError") = cardCondNode n := by
  obtain ⟨c, hc⟩ := Option.isSome_iff_exists.1 hn
  rw [hc]
  exact h.cacheN n c hc

theorem tagLoopStep_S_mono (k r : Term) (st : St) (t : Term) :
    st.S ⊆ (tagLoopStep k r st t).S := by
  unfold tagLoopStep
  dsimp only
  split
  · intro x hx
    exact mem_add.2 (Or.inr (subset_addAll _ _ hx))
  · intro x hx
    exact mem_add.2 (Or.inr hx)

theorem foldTagLoop_S_mono (k r : Term) (tags : List Term) (st : St) :
    st.S ⊆ (tags.foldl (tagLoopStep k r) st).S := by
  induction tags generalizing st with
  | nil => exact fun _ hx => hx
  | cons t rest ih =>
    intro x hx
    exact ih (tagLoopStep k r st t) (tagLoopStep_S_mono k r st t hx)

theorem cardBlock_S_mono (st : St) (n : Nat) : st.S ⊆ (cardBlock st n).S := by
  rcases hcase : (alist.lookup st.cardShapes n).isNone with hf | ht
  · unfold cardBlock
    rw [if_neg (by rw [hcase]; exact Bool.false_ne_true)]
  · rw [cardBlock_S_miss hcase]
    exact subset_addAll _ _

/-- The six statements of the class node-shape header batch. -/
def headerTriples (klass : Term) : List Triple :=
  [(scNode klass, V.A, V.shNodeShape), (scNode klass, V.shRule, ruleNode klass),
   (ruleNode klass, V.A, V.shTripleRule), (ruleNode klass, V.shSubject, V.shThis),
   (ruleNode klass, V.shPredicate, V.A), (ruleNode klass, V.shObject, klass)]

/-- The class node-shape header batch only touches predicates the invariant
does not analyse (its one `sh:rule` statement points at a rule-form node). -/
theorem header_sinv {st : St} {klass : Term} (h : SInv st) :
    SInv { st with S := st.S.addAll (headerTriples klass) } := by
  unfold headerTriples
  apply sinv_addS_inert ?_ ?_ h
  · intro tr htr
    simp only [List.mem_cons, List.not_mem_nil, or_false] at htr
    rcases htr with rfl | rfl | rfl | rfl | rfl | rfl <;>
      exact ⟨by simp, by simp, by simp, by simp, by simp, by simp⟩
  · intro tr htr hp
    simp only [List.mem_cons, List.not_mem_nil, or_false] at htr
    rcases htr with rfl | rfl | rfl | rfl | rfl | rfl
    · exact absurd hp (by simp)
    · exact ⟨klass.str, rfl⟩
    all_goals exact absurd hp (by simp)

/-- Adding one `sh:targetClass` statement preserves the invariant. -/
theorem target_sinv {st : St} {x y : Term} (h : SInv st) :
    SInv { st with S := st.S.add (x, V.shTargetClass, y) } := by
  apply @sinv_addS_inert st [(x, V.shTargetClass, y)] ?_ ?_ h
  · intro tr htr
    simp only [List.mem_cons, List.not_mem_nil, or_false] at htr
    subst htr
    exact ⟨by simp, by simp, by simp, by simp, by simp, by simp⟩
  · intro tr htr hp
    simp only [List.mem_cons, List.not_mem_nil, or_false] at htr
    subst htr
    exact absurd hp (by simp)

theorem foldTagLoop_sinv {k r : Term} {tags : List Term} {st : St}
    (hrule : ∃ s, r = Term.bnode (s ++ "TagInferenceRule"))
    (h : SInv st) : SInv (tags.foldl (tagLoopStep k r) st) := by
  induction tags generalizing st with
  | nil => exact h
  | cons t rest ih => exact ih (tagLoopStep_sinv hrule h)

/-- `add_tags` preserves the structural invariant. -/
theorem addTags_sinv {st : St} {klass : Term} {tags : List Term}
    (h : SInv st) : SInv (addTags st klass tags) := by
  unfold addTags
  split
  · exact h
  · rw [foldl_g1_G]
    exact target_sinv (cardBlock_sinv (foldTagLoop_sinv ⟨klass.str, rfl⟩
      (header_sinv (sinv_G h))))

theorem addTags_S_mono (st : St) (k : Term) (tags : List Term) :
    st.S ⊆ (addTags st k tags).S := by
  unfold addTags
  split
  · exact fun _ hx => hx
  · rw [foldl_g1_G]
    intro x hx
    apply mem_add.2
    right
    apply cardBlock_S_mono
    apply foldTagLoop_S_mono
    exact subset_addAll _ _ hx

/-- One conditions-loop iteration caches exactly its own tag (if not present). -/
theorem tagLoopStep_tcached {k r : Term} {st : St} {tag t : Term} :
    TCached (tagLoopStep k r st tag) t ↔ (t = tag ∨ TCached st t) := by
  unfold tagLoopStep
  dsimp only
  split
  · next hmiss =>
    show ((alist.lookup ((tag, condNode tag) :: st.tagShapes) t).isSome = true) ↔ _
    rw [lookup_cons_isSome]
    exact Iff.rfl
  · next hhit =>
    constructor
    · exact Or.inr
    · rintro (rfl | hT)
      · cases hx : alist.lookup st.tagShapes t with
        | none => rw [hx] at hhit; exact absurd rfl hhit
        | some v => show (alist.lookup st.tagShapes t).isSome = true; rw [hx]; rfl
      · exact hT

theorem foldTagLoop_tcached {k r : Term} {tags : List Term} {st : St} {t : Term} :
    TCached (tags.foldl (tagLoopStep k r) st) t ↔ (t ∈ tags ∨ TCached st t) := by
  induction tags generalizing st with
  | nil => simp
  | cons thead rest ih =>
    rw [List.foldl_cons, ih, tagLoopStep_tcached]
    simp only [List.mem_cons]
    tauto

theorem tagLoopStep_cardShapes (k r : Term) (st : St) (t : Term) :
    (tagLoopStep k r st t).cardShapes = st.cardShapes := by
  unfold tagLoopStep
  dsimp only
  split <;> rfl

theorem foldTagLoop_ncached {k r : Term} {tags : List Term} {st : St} {m : Nat} :
    NCached (tags.foldl (tagLoopStep k r) st) m ↔ NCached st m := by
  induction tags generalizing st with
  | nil => exact Iff.rfl
  | cons thead rest ih =>
    rw [List.foldl_cons, ih]
    unfold NCached
    rw [tagLoopStep_cardShapes]

/-- Tags cached after `add_tags`: exactly the prior cache plus (when the
definition is nonempty) the call's own tags. -/
theorem addTags_tcached {st : St} {k : Term} {tags : List Term} {t : Term} :
    TCached (addTags st k tags) t ↔ ((tags ≠ [] ∧ t ∈ tags) ∨ TCached st t) := by
  unfold addTags
  split
  · next hlen =>
    rw [List.length_eq_zero] at hlen
    subst hlen
    simp
  · next hlen =>
    have hne : tags ≠ [] := by
      intro he
      rw [he] at hlen
      exact hlen rfl
    rw [foldl_g1_G]
    refine Iff.trans tcached_cardBlock (Iff.trans foldTagLoop_tcached ?_)
    constructor
    · rintro (hmem | hT)
      · exact Or.inl ⟨hne, hmem⟩
      · exact Or.inr hT
    · rintro (⟨_, hmem⟩ | hT)
      · exact Or.inl hmem
      · exact Or.inr hT

/-- Counts cached after `add_tags`: exactly the prior cache plus (when the
definition is nonempty) the call's tag count. -/
theorem addTags_ncached {st : St} {k : Term} {tags : List Term} {m : Nat} :
    NCached (addTags st k tags) m ↔
      ((tags ≠ [] ∧ m = tags.length) ∨ NCached st m) := by
  unfold addTags
  split
  · next hlen =>
    rw [List.length_eq_zero] at hlen
    subst hlen
    simp
  · next hlen =>
    have hne : tags ≠ [] := by
      intro he
      rw [he] at hlen
      exact hlen rfl
    rw [foldl_g1_G]
    refine Iff.trans ncached_cardBlock (Iff.trans (or_congr Iff.rfl foldTagLoop_ncached) ?_)
    constructor
    · rintro (rfl | hT)
      · exact Or.inl ⟨hne, rfl⟩
      · exact Or.inr hT
    · rintro (⟨_, rfl⟩ | hT)
      · exact Or.inl rfl
      · exact Or.inr hT

/-- Line 176 attaches the (created-or-cached) condition for the iteration's
tag, and under the invariant that condition is the tag's deterministic node. -/
theorem tagLoopStep_attaches {k r : Term} {st : St} {tag : Term}
    (hrule : ∃ s, r = Term.bnode (s ++ "TagInferenceRule")) (h : SInv st) :
    (r, V.shCondition, condNode tag) ∈ (tagLoopStep k r st tag).S := by
  unfold tagLoopStep
  dsimp only
  split
  · next hmiss =>
    rw [cached_cond_val (tagCreate_sinv hrule (sinv_G h))
      (tcached_tagCreate.2 (Or.inl rfl))]
    exact mem_add.2 (Or.inl rfl)
  · next hhit =>
    have ht : TCached st tag := by
      cases hx : alist.lookup st.tagShapes tag with
      | none => rw [hx] at hhit; exact absurd rfl hhit
      | some v =>
        show (alist.lookup st.tagShapes tag).isSome = true
        rw [hx]
        rfl
    rw [cached_cond_val h ht]
    exact mem_add.2 (Or.inl rfl)

theorem foldTagLoop_attach {k r : Term} {tags : List Term} {st : St} {t0 : Term}
    (hrule : ∃ s, r = Term.bnode (s ++ "TagInferenceRule"))
    (h : SInv st) (hmem : t0 ∈ tags) :
    (r, V.shCondition, condNode t0) ∈ (tags.foldl (tagLoopStep k r) st).S := by
  induction tags generalizing st with
  | nil => cases hmem
  | cons thead rest ih =>
    rw [List.foldl_cons]
    rcases List.mem_cons.1 hmem with rfl | hmem'
    · exact foldTagLoop_S_mono k r rest _ (tagLoopStep_attaches hrule h)
    · exact ih (tagLoopStep_sinv hrule h) hmem'

/-- Under the invariant, `add_tags` attaches the shared condition of every
tag of the definition to the class's inference rule. -/
theorem addTags_attach {st : St} {klass : Term} {tags : List Term} {t0 : Term}
    (h : SInv st) (hmem : t0 ∈ tags) :
    (ruleNode klass, V.shCondition, condNode t0) ∈ (addTags st klass tags).S := by
  unfold addTags
  split
  · next hlen =>
    rw [List.length_eq_zero] at hlen
    subst hlen
    cases hmem
  · rw [foldl_g1_G]
    apply mem_add.2
    right
    apply cardBlock_S_mono
    exact foldTagLoop_attach ⟨klass.str, rfl⟩ (header_sinv (sinv_G h)) hmem

/-- The final `sh:targetClass` add of `add_tags`, in isolation: under the
invariant the cached value bound as the target is the deterministic shape. -/
theorem target_step_mem {st4 : St} {klass : Term} {n : Nat}
    (h4 : SInv st4) (hn : NCached st4 n) :
    (scNode klass, V.shTargetClass, cardCondNode n) ∈
      st4.S.add (scNode klass, V.shTargetClass,
        (alist.lookup st4.cardShapes n).getD (Term.uri "KeyError")) := by
  rw [cached_card_val h4 hn]
  exact mem_add.2 (Or.inl rfl)

/-- Under the invariant, `add_tags` binds the class's shape target to the
shared exact-cardinality shape for its tag count (line 203). -/
theorem addTags_target {st : St} {klass : Term} {tags : List Term}
    (h : SInv st) (hne : tags ≠ []) :
    (scNode klass, V.shTargetClass, cardCondNode tags.length) ∈
      (addTags st klass tags).S := by
  unfold addTags
  split
  · next hlen =>
    rw [List.length_eq_zero] at hlen
    exact absurd hlen hne
  · rw [foldl_g1_G]
    refine target_step_mem ?_ ?_
    · exact cardBlock_sinv (foldTagLoop_sinv ⟨klass.str, rfl⟩
        (header_sinv (sinv_G h)))
    · exact ncached_cardBlock.2 (Or.inl rfl)

theorem foldCalls_sinv {calls : List (Term × List Term)} {st : St}
    (h : SInv st) :
    SInv (calls.foldl (fun s c => addTags s c.1 c.2) st) := by
  induction calls generalizing st with
  | nil => exact h
  | cons c rest ih => exact ih (addTags_sinv h)

/-- The invariant holds at the end of any sequence of `add_tags` calls. -/
theorem runAddTags_sinv (calls : List (Term × List Term)) :
    SInv (runAddTags calls) := foldCalls_sinv sinv_init

theorem foldCalls_S_mono (calls : List (Term × List Term)) (st : St) :
    st.S ⊆ (calls.foldl (fun s c => addTags s c.1 c.2) st).S := by
  induction calls generalizing st with
  | nil => exact fun _ hx => hx
  | cons c rest ih =>
    intro x hx
    exact ih _ (addTags_S_mono st c.1 c.2 hx)

theorem foldCalls_tcached {calls : List (Term × List Term)} {st : St} {t : Term}
    (h : TCached st t) :
    TCached (calls.foldl (fun s c => addTags s c.1 c.2) st) t := by
  induction calls generalizing st with
  | nil => exact h
  | cons c rest ih => exact ih (addTags_tcached.2 (Or.inr h))

theorem foldCalls_ncached {calls : List (Term × List Term)} {st : St} {n : Nat}
    (h : NCached st n) :
    NCached (calls.foldl (fun s c => addTags s c.1 c.2) st) n := by
  induction calls generalizing st with
  | nil => exact h
  | cons c rest ih => exact ih (addTags_ncached.2 (Or.inr h))

/-- A tag appearing in some call's definition is cached at the end of the run. -/
theorem runAddTags_tcached {calls : List (Term × List Term)} {t : Term}
    (hmem : ∃ c ∈ calls, t ∈ c.2) : TCached (runAddTags calls) t := by
  obtain ⟨c, hc, ht⟩ := hmem
  obtain ⟨pre, post, rfl⟩ := List.append_of_mem hc
  unfold runAddTags
  rw [List.foldl_append, List.foldl_cons]
  exact foldCalls_tcached (addTags_tcached.2 (Or.inl ⟨List.ne_nil_of_mem ht, ht⟩))

/-- A tag count realised by some nonempty call is cached at the end of the run. -/
theorem runAddTags_ncached {calls : List (Term × List Term)} {n : Nat}
    (hmem : ∃ c ∈ calls, c.2 ≠ [] ∧ c.2.length = n) :
    NCached (runAddTags calls) n := by
  obtain ⟨c, hc, hne, hlen⟩ := hmem
  obtain ⟨pre, post, rfl⟩ := List.append_of_mem hc
  unfold runAddTags
  rw [List.foldl_append, List.foldl_cons]
  exact foldCalls_ncached (addTags_ncached.2 (Or.inl ⟨hne, hlen.symm⟩))

/-- Every call of the run attaches the shared condition of each of its tags. -/
theorem runAddTags_attach {pre post : List (Term × List Term)}
    {c : Term × List Term} {t0 : Term} (hmem : t0 ∈ c.2) :
    (ruleNode c.1, V.shCondition, condNode t0) ∈
      (runAddTags (pre ++ c :: post)).S := by
  unfold runAddTags
  rw [List.foldl_append, List.foldl_cons]
  apply foldCalls_S_mono
  exact addTags_attach (foldCalls_sinv sinv_init) hmem

/-- Every nonempty call of the run binds its class shape's target to the
shared exact-cardinality shape for its own tag count. -/
theorem runAddTags_target {pre post : List (Term × List Term)}
    {c : Term × List Term} (hne : c.2 ≠ []) :
    (scNode c.1, V.shTargetClass, cardCondNode c.2.length) ∈
      (runAddTags (pre ++ c :: post)).S := by
  unfold runAddTags
  rw [List.foldl_append, List.foldl_cons]
  apply foldCalls_S_mono
  exact addTags_target (foldCalls_sinv sinv_init) hne

/-! ### Characterising the emitted fragments -/

/-- A node `c` is a Tag Detection Condition fragment for tag `T` in the SHACL
graph `S`: it carries an `sh:property` shape whose qualified value shape
requires the value `T` (the structure built by lines 160–173). -/
def IsTagCond (S : Graph) (T c : Term) : Prop :=
  ∃ p v, (c, V.shProperty, p) ∈ S ∧ (p, V.shQualifiedValueShape, v) ∈ S ∧
    (v, V.shHasValue, T) ∈ S

/-- A node `c` is an Exact-Cardinality Shape fragment for count `n`: it
carries an `sh:property` shape constraining `brick:hasTag` to occur at least
and at most `n` times (the structure built by lines 179–190). -/
def IsCardShape (S : Graph) (n : Nat) (c : Term) : Prop :=
  ∃ p, (c, V.shProperty, p) ∈ S ∧ (p, V.shMinCount, Term.litNat n) ∈ S ∧
    (p, V.shMaxCount, Term.litNat n) ∈ S

/-- A node `r` is a companion inference rule for count `n`: it carries an
`sh:rule` whose body fires on the exact-cardinality condition for `n`
(the structure built by lines 191–201). -/
def IsCardRule (S : Graph) (n : Nat) (r : Term) : Prop :=
  ∃ b, (r, V.shRule, b) ∈ S ∧ (b, V.shCondition, cardCondNode n) ∈ S

/-- Under the invariant there is at most one Tag Detection Condition fragment
per tag: exactly the cached deterministic node, present iff the tag is cached. -/
theorem isTagCond_iff {st : St} (h : SInv st) {T c : Term} :
    IsTagCond st.S T c ↔ (TCached st T ∧ c = condNode T) := by
  constructor
  · rintro ⟨p, v, hcp, hpv, hvT⟩
    rcases h.prop_an c p hcp with ⟨t, ht, hc, hp⟩ | ⟨n, hn, hc, hp⟩
    · obtain ⟨t', k', ht', hp', hv', hpay⟩ := h.qvs_an p v hpv
      have hTt' : T = t' := h.hv_fun v T t' hvT hpay
      subst hTt'
      have he : propNode t = propNode T := hp.symm.trans hp'
      exact ⟨ht', hc.trans (propNode_eq_imp he)⟩
    · obtain ⟨t', k', ht', hp', hv', hpay⟩ := h.qvs_an p v hpv
      exact absurd (hp'.symm.trans hp) (propNode_ne_cardPropNode t' n)
  · rintro ⟨hT, rfl⟩
    obtain ⟨k, h1, h2⟩ := h.qvs_ex T hT
    exact ⟨propNode T, Term.anon k, h.prop_exT T hT, h1, h2⟩

/-- Under the invariant there is at most one Exact-Cardinality Shape fragment
per count: exactly the cached deterministic node, present iff the count is
cached. -/
theorem isCardShape_iff {st : St} (h : SInv st) {n : Nat} {c : Term} :
    IsCardShape st.S n c ↔ (NCached st n ∧ c = cardCondNode n) := by
  constructor
  · rintro ⟨p, hcp, hmin, _hmax⟩
    rcases h.prop_an c p hcp with ⟨t, ht, hc, hp⟩ | ⟨m, hm, hc, hp⟩
    · obtain ⟨m', hm', hx, hv⟩ := h.minc_an p (Term.litNat n) hmin
      exact absurd (hp.symm.trans hx) (propNode_ne_cardPropNode t m')
    · obtain ⟨m', hm', hx, hv⟩ := h.minc_an p (Term.litNat n) hmin
      have hnm' : n = m' := by injection hv
      have hcc : cardCondNode m = cardCondNode m' :=
        cardPropNode_eq_imp (hp.symm.trans hx)
      subst hnm'
      exact ⟨hm', hc.trans hcc⟩
  · rintro ⟨hn, rfl⟩
    exact ⟨cardPropNode n, h.prop_exN n hn, h.minc_ex n hn, h.maxc_ex n hn⟩

/-- Under the invariant, once the count `n` is cached the only companion
inference rule firing on its exact-cardinality condition is the deterministic
rule node for `n`. -/
theorem isCardRule_iff {st : St} (h : SInv st) {n : Nat} {r : Term}
    (hn : NCached st n) :
    IsCardRule st.S n r ↔ r = cardRuleNode n := by
  constructor
  · rintro ⟨b, hrb, hbc⟩
    rcases h.cond_an b (cardCondNode n) hbc with ⟨s, s', hx, hy⟩ | ⟨m, hm, hb, hy⟩
    · exact absurd hy (by simp [cardCondNode, BSH])
    · rcases h.rule_an r b hrb with ⟨s, hbs⟩ | ⟨m', hm', hr, hb'⟩
      · rw [hb] at hbs
        exact absurd hbs.symm (ruleForm_ne_bodyNode s m)
      · have h1 := (bodyNode_eq_imp (hb.symm.trans hb')).2
        have h2 := (cardCondNode_eq_imp hy).1
        rw [hr, ← h1, ← h2]
  · rintro rfl
    exact ⟨bodyNode n, h.rule_exN n hn, h.cond_exN n hn⟩

/-- C4: throughout one compilation run, for every tag `T` appearing in the
tag set of two or more classes, exactly one Tag Detection Condition fragment
for `T` exists in the emitted rule graph — every node satisfying the
fragment shape for `T` is the single deterministic condition node — and
every call whose tag set contains `T` attaches that one shared fragment to
its own inference rule. -/
theorem C4_tag_condition_sharing (calls : List (Term × List Term)) (T : Term)
    (hT : 2 ≤ (calls.filter (fun c => decide (T ∈ c.2))).length) :
    (∀ c, IsTagCond (runAddTags calls).S T c ↔ c = condNode T) ∧
    (∀ pre cl post, calls = pre ++ cl :: post → T ∈ cl.2 →
      (ruleNode cl.1, V.shCondition, condNode T) ∈ (runAddTags calls).S) := by
  have hpos : 0 < (calls.filter (fun c => decide (T ∈ c.2))).length :=
    lt_of_lt_of_le (by norm_num) hT
  obtain ⟨c0, hc0⟩ := List.exists_mem_of_length_pos hpos
  have hc0' := List.mem_filter.1 hc0
  have hTC : TCached (runAddTags calls) T :=
    runAddTags_tcached ⟨c0, hc0'.1, of_decide_eq_true hc0'.2⟩
  constructor
  · intro c
    rw [isTagCond_iff (runAddTags_sinv calls)]
    constructor
    · exact And.right
    · intro hc
      exact ⟨hTC, hc⟩
  · intro pre cl post heq hmem
    subst heq
    exact runAddTags_attach hmem

/-- C5: throughout one compilation run, for every tag-set size `N` realised
by some class's (nonempty) tag set, exactly one Exact-Cardinality Shape
fragment for `N` and exactly one companion inference rule for `N` exist in
the emitted rule graph — every node satisfying either shape is the single
deterministic node — and every class whose tag set has size `N` binds its
own shape's target to that one shared cardinality shape. -/
theorem C5_cardinality_sharing (calls : List (Term × List Term)) (N : Nat)
    (hN : ∃ c ∈ calls, c.2 ≠ [] ∧ c.2.length = N) :
    (∀ c, IsCardShape (runAddTags calls).S N c ↔ c = cardCondNode N) ∧
    (∀ r, IsCardRule (runAddTags calls).S N r ↔ r = cardRuleNode N) ∧
    (∀ pre cl post, calls = pre ++ cl :: post → cl.2 ≠ [] → cl.2.length = N →
      (scNode cl.1, V.shTargetClass, cardCondNode N) ∈ (runAddTags calls).S) := by
  have hNC : NCached (runAddTags calls) N := runAddTags_ncached hN
  refine ⟨?_, ?_, ?_⟩
  · intro c
    rw [isCardShape_iff (runAddTags_sinv calls)]
    constructor
    · exact And.right
    · intro hc
      exact ⟨hNC, hc⟩
  · intro r
    exact isCardRule_iff (runAddTags_sinv calls) hNC
  · intro pre cl post heq hne hlen
    subst heq
    rw [← hlen]
    exact runAddTags_target hne

def c4calls : List (Term × List Term) :=
  [(BRICK "Alpha", [TAGNS "Shared"]),
   (BRICK "Beta", [TAGNS "Shared", TAGNS "Extra"])]

/-- Witness for C4 at a concrete two-class run sharing the tag `Shared`. -/
theorem C4_tag_condition_sharing_witness :
    2 ≤ (c4calls.filter (fun c => decide (TAGNS "Shared" ∈ c.2))).length ∧
    IsTagCond (runAddTags c4calls).S (TAGNS "Shared")
      (condNode (TAGNS "Shared")) ∧
    (ruleNode (BRICK "Alpha"), V.shCondition, condNode (TAGNS "Shared")) ∈
      (runAddTags c4calls).S := by
  refine ⟨by decide, ?_, ?_⟩
  · exact ((C4_tag_condition_sharing c4calls (TAGNS "Shared") (by decide)).1
      (condNode (TAGNS "Shared"))).2 rfl
  · exact (C4_tag_condition_sharing c4calls (TAGNS "Shared") (by decide)).2
      [] (BRICK "Alpha", [TAGNS "Shared"])
      [(BRICK "Beta", [TAGNS "Shared", TAGNS "Extra"])] rfl (by decide)

def c5calls : List (Term × List Term) :=
  [(BRICK "Gamma", [TAGNS "T1", TAGNS "T2"]),
   (BRICK "Delta", [TAGNS "T3", TAGNS "T4"])]

/-- Witness for C5 at a concrete run with two classes of tag-set size 2. -/
theorem C5_cardinality_sharing_witness :
    (∃ c ∈ c5calls, c.2 ≠ [] ∧ c.2.length = 2) ∧
    IsCardShape (runAddTags c5calls).S 2 (cardCondNode 2) ∧
    IsCardRule (runAddTags c5calls).S 2 (cardRuleNode 2) ∧
    (scNode (BRICK "Gamma"), V.shTargetClass, cardCondNode 2) ∈
      (runAddTags c5calls).S := by
  have hyp : ∃ c ∈ c5calls, c.2 ≠ [] ∧ c.2.length = 2 :=
    ⟨(BRICK "Gamma", [TAGNS "T1", TAGNS "T2"]), by decide, by decide, rfl⟩
  refine ⟨hyp, ?_, ?_, ?_⟩
  · exact ((C5_cardinality_sharing c5calls 2 hyp).1 (cardCondNode 2)).2 rfl
  · exact ((C5_cardinality_sharing c5calls 2 hyp).2.1 (cardRuleNode 2)).2 rfl
  · exact (C5_cardinality_sharing c5calls 2 hyp).2.2
      [] (BRICK "Gamma", [TAGNS "T1", TAGNS "T2"])
      [(BRICK "Delta", [TAGNS "T3", TAGNS "T4"])] rfl (by decide) rfl
